import Mathlib

/-!
# Invoice chaincodes (`fabinvoice.go`, `invoice.go`): shallow embedding and verified properties

Each chaincode stores invoice records as JSON text in a key-value ledger and
exposes a command dispatcher (`Invoke`) over its handlers: eight in
`fabinvoice.go`, six in `invoice.go` (namespace `InvoiceGo`).

Modelling conventions.

* A Go `string` or `[]byte` is a `GoString`, a list of bytes; it need not be valid
  UTF-8.  A string literal of the source is written `go "..."`, the UTF-8 bytes of
  its text.
* `encoding/json` is modelled for the types the chaincodes use it at, structs of
  ten tagged string fields: `json.Marshal` writes the object text, coercing each
  field to valid UTF-8 as the library does; `json.Unmarshal` validates and parses
  arbitrary bytes and stores into the struct.
* The chaincode stub is a world state (key-sorted association list) together
  with the trace of stub calls made so far.  `GetState` of an absent key yields
  empty bytes; `PutState` refuses the empty key, as the shim does, and otherwise
  writes.  Range scans, rich queries and history are answered by a backend oracle
  whose iterators may fail.
* A handler maps the stub before the invocation to a response and the stub after
  it; a Go run-time panic (index out of range) is the result `none`.
-/

namespace Fabinvoice

/-! ## Bytes and UTF-8 -/

/-- A byte. -/
abbrev Byte := Fin 256

/-- A Go `string` or `[]byte`: a sequence of bytes, not necessarily valid UTF-8. -/
abbrev GoString := List Byte

/-- The byte with the given value (taken modulo 256). -/
def byte (n : Nat) : Byte := ⟨n % 256, Nat.mod_lt n (by decide)⟩

namespace utf8

/-- The constant `utf8.RuneError`, U+FFFD. -/
def RuneError : Nat := 65533

/-- The function `utf8.EncodeRune`: a surrogate or a value above U+10FFFF is
written as U+FFFD. -/
def EncodeRune (r : Nat) : List Byte :=
  if r < 128 then [byte r]
  else if r < 2048 then [byte (192 + r / 64), byte (128 + r % 64)]
  else if (55296 ≤ r ∧ r < 57344) ∨ 1114111 < r then [byte 239, byte 191, byte 189]
  else if r < 65536 then
    [byte (224 + r / 4096), byte (128 + r / 64 % 64), byte (128 + r % 64)]
  else
    [byte (240 + r / 262144), byte (128 + r / 4096 % 64), byte (128 + r / 64 % 64),
      byte (128 + r % 64)]

/-- The table `acceptRanges`, lower bound: the least second byte a first byte
accepts. -/
def acceptLo (b0 : Nat) : Nat :=
  if b0 = 224 then 160 else if b0 = 240 then 144 else 128

/-- The table `acceptRanges`, upper bound: the greatest second byte a first byte
accepts. -/
def acceptHi (b0 : Nat) : Nat :=
  if b0 = 237 then 159 else if b0 = 244 then 143 else 191

/-- The function `utf8.DecodeRune`: the rune at the head of the input and its
width in bytes; `(RuneError, 1)` for an invalid or truncated sequence and
`(RuneError, 0)` for empty input.  The second byte of a sequence is checked
against the range its first byte accepts (no overlong form, no surrogate, nothing
above U+10FFFF). -/
def DecodeRune : List Byte → Nat × Nat
  | [] => (RuneError, 0)
  | b0 :: rest =>
    if b0.val < 128 then (b0.val, 1)
    else if b0.val < 194 then (RuneError, 1)
    else if b0.val < 224 then
      match rest with
      | b1 :: _ =>
        if 128 ≤ b1.val ∧ b1.val ≤ 191 then (b0.val % 32 * 64 + b1.val % 64, 2)
        else (RuneError, 1)
      | [] => (RuneError, 1)
    else if b0.val < 240 then
      match rest with
      | b1 :: b2 :: _ =>
        if acceptLo b0.val ≤ b1.val ∧ b1.val ≤ acceptHi b0.val
            ∧ 128 ≤ b2.val ∧ b2.val ≤ 191 then
          (b0.val % 16 * 4096 + b1.val % 64 * 64 + b2.val % 64, 3)
        else (RuneError, 1)
      | _ => (RuneError, 1)
    else if b0.val < 245 then
      match rest with
      | b1 :: b2 :: b3 :: _ =>
        if acceptLo b0.val ≤ b1.val ∧ b1.val ≤ acceptHi b0.val
            ∧ 128 ≤ b2.val ∧ b2.val ≤ 191 ∧ 128 ≤ b3.val ∧ b3.val ≤ 191 then
          (b0.val % 8 * 262144 + b1.val % 64 * 4096 + b2.val % 64 * 64 + b3.val % 64, 4)
        else (RuneError, 1)
      | _ => (RuneError, 1)
    else (RuneError, 1)

/-- The loop of `utf8.Valid`; the first argument counts the bytes of the current
sequence still to be passed over. -/
def validFrom : Nat → List Byte → Bool
  | _, [] => true
  | skip + 1, _ :: rest => validFrom skip rest
  | 0, b :: rest =>
    if (DecodeRune (b :: rest)).1 = RuneError ∧ (DecodeRune (b :: rest)).2 = 1 then false
    else validFrom ((DecodeRune (b :: rest)).2 - 1) rest

/-- The function `utf8.Valid`: the bytes are entirely valid UTF-8. -/
def Valid (s : List Byte) : Bool := validFrom 0 s

end utf8

/-- A rune is a Unicode scalar value. -/
def isScalar (r : Nat) : Prop := r < 55296 ∨ (57344 ≤ r ∧ r < 1114112)

/-- The UTF-8 bytes of a text. -/
def goChars : List Char → GoString
  | [] => []
  | c :: cs => utf8.EncodeRune c.toNat ++ goChars cs

/-- The bytes of a string literal of the source: the UTF-8 encoding of its text. -/
def go (s : String) : GoString := goChars s.data

/-! ## The record -/

/-- The `Invoice` struct of `fabinvoice.go`: ten string fields. -/
structure Invoice where
  InvoiceNumber : GoString
  BilledTo : GoString
  InvoiceDate : GoString
  InvoiceAmount : GoString
  ItemDescription : GoString
  GR : GoString
  IsPaid : GoString
  PaidAmount : GoString
  Repaid : GoString
  RepaymentAmount : GoString
deriving DecidableEq, Repr

/-- The zero value `Invoice{}`. -/
def Invoice.zero : Invoice := ⟨[], [], [], [], [], [], [], [], [], []⟩

/-- The ten struct fields, in declaration order. -/
inductive Field
  | InvoiceNumber | BilledTo | InvoiceDate | InvoiceAmount | ItemDescription
  | GR | IsPaid | PaidAmount | Repaid | RepaymentAmount
deriving DecidableEq, Repr

/-- The `json:"..."` tag of each field. -/
def Field.tag : Field → GoString
  | .InvoiceNumber => go "invoiceNumber"
  | .BilledTo => go "billedTo"
  | .InvoiceDate => go "invoiceDate"
  | .InvoiceAmount => go "invoiceAmount"
  | .ItemDescription => go "itemDescription"
  | .GR => go "gr"
  | .IsPaid => go "isPaid"
  | .PaidAmount => go "paidAmount"
  | .Repaid => go "repaid"
  | .RepaymentAmount => go "repaymentAmount"

/-- All fields in declaration order (the order the encoder walks them). -/
def Field.all : List Field :=
  [.InvoiceNumber, .BilledTo, .InvoiceDate, .InvoiceAmount, .ItemDescription,
   .GR, .IsPaid, .PaidAmount, .Repaid, .RepaymentAmount]

/-- Read a field of the struct. -/
def Invoice.get (v : Invoice) : Field → GoString
  | .InvoiceNumber => v.InvoiceNumber
  | .BilledTo => v.BilledTo
  | .InvoiceDate => v.InvoiceDate
  | .InvoiceAmount => v.InvoiceAmount
  | .ItemDescription => v.ItemDescription
  | .GR => v.GR
  | .IsPaid => v.IsPaid
  | .PaidAmount => v.PaidAmount
  | .Repaid => v.Repaid
  | .RepaymentAmount => v.RepaymentAmount

/-- Store into a field of the struct. -/
def Invoice.set (v : Invoice) (f : Field) (s : GoString) : Invoice :=
  match f with
  | .InvoiceNumber => { v with InvoiceNumber := s }
  | .BilledTo => { v with BilledTo := s }
  | .InvoiceDate => { v with InvoiceDate := s }
  | .InvoiceAmount => { v with InvoiceAmount := s }
  | .ItemDescription => { v with ItemDescription := s }
  | .GR => { v with GR := s }
  | .IsPaid => { v with IsPaid := s }
  | .PaidAmount => { v with PaidAmount := s }
  | .Repaid => { v with Repaid := s }
  | .RepaymentAmount => { v with RepaymentAmount := s }

/-! ## `encoding/json`: the encoder

Bytes of the JSON syntax are written by value: 34 is the quote, 92 the backslash,
117 the letter `u`, 123 and 125 the braces, 91 and 93 the brackets, 58 the colon,
44 the comma. -/

namespace json

/-- Lower-case hexadecimal digit of a value below 16 (`hex` in `encode.go`). -/
def hex (n : Nat) : Byte :=
  if n < 10 then byte (48 + n) else byte (87 + n)

/-- The table `htmlSafeSet`: ASCII bytes written verbatim inside a JSON string
when HTML escaping is on (the default of `Marshal`): everything from the space on
except the quote, `&`, `<`, `>` and the backslash. -/
def htmlSafeSet (b : Byte) : Bool :=
  decide (32 ≤ b.val) && decide (b.val ≠ 34) && decide (b.val ≠ 38) && decide (b.val ≠ 60)
    && decide (b.val ≠ 62) && decide (b.val ≠ 92)

/-- What `appendString` writes for one ASCII byte: the byte itself when the table
allows it, the two-byte escapes for the backslash, the quote, backspace, form
feed, line feed, carriage return and tab, and a `\u00XX` escape for the other
control characters and for `<`, `>`, `&`.  (Releases before Go 1.22 write
`\u0008` and `\u000c` for backspace and form feed; the decoder reads both forms
as the same byte.) -/
def appendStringASCII (b : Byte) : List Byte :=
  if htmlSafeSet b then [b]
  else if b.val = 92 ∨ b.val = 34 then [92, b]
  else if b.val = 8 then [92, 98]
  else if b.val = 12 then [92, 102]
  else if b.val = 10 then [92, 110]
  else if b.val = 13 then [92, 114]
  else if b.val = 9 then [92, 116]
  else [92, 117, 48, 48, hex (b.val / 16), hex (b.val % 16)]

/-- The loop of `appendString` over the source bytes; the first argument counts
the bytes of the current sequence already dealt with.  An invalid byte is written
as the six-byte escape of U+FFFD, the separators U+2028 and U+2029 as their
six-byte escapes, any other multi-byte sequence verbatim. -/
def appendStringFrom : Nat → List Byte → List Byte
  | _, [] => []
  | skip + 1, _ :: rest => appendStringFrom skip rest
  | 0, b :: rest =>
    if b.val < 128 then appendStringASCII b ++ appendStringFrom 0 rest
    else if (utf8.DecodeRune (b :: rest)).1 = utf8.RuneError
        ∧ (utf8.DecodeRune (b :: rest)).2 = 1 then
      [92, 117, 102, 102, 102, 100] ++ appendStringFrom 0 rest
    else if (utf8.DecodeRune (b :: rest)).1 = 8232 ∨ (utf8.DecodeRune (b :: rest)).1 = 8233 then
      [92, 117, 50, 48, 50, hex ((utf8.DecodeRune (b :: rest)).1 % 16)]
        ++ appendStringFrom ((utf8.DecodeRune (b :: rest)).2 - 1) rest
    else
      (b :: rest).take (utf8.DecodeRune (b :: rest)).2
        ++ appendStringFrom ((utf8.DecodeRune (b :: rest)).2 - 1) rest

/-- The function `appendString`: the quoted, escaped JSON string literal. -/
def appendString (s : List Byte) : List Byte :=
  34 :: (appendStringFrom 0 s ++ [34])

/-- The loop of `structEncoder.encode` after the first field: each further field
is preceded by a comma. -/
def encodeRest (v : Invoice) : List Field → List Byte
  | [] => [125]
  | f :: fs =>
    44 :: (appendString f.tag ++ 58 :: (appendString (v.get f) ++ encodeRest v fs))

/-- The function `structEncoder.encode`: the first field is preceded by the
opening brace, an empty field list gives the text of the empty object. -/
def encodeStruct (v : Invoice) : List Field → List Byte
  | [] => [123, 125]
  | f :: fs =>
    123 :: (appendString f.tag ++ 58 :: (appendString (v.get f) ++ encodeRest v fs))

/-- `json.Marshal(invoice)`; it cannot fail on a struct of strings. -/
def Marshal (v : Invoice) : GoString :=
  encodeStruct v Field.all

/-! ## `encoding/json`: the decoder -/

/-- A parsed JSON value, as far as a struct of strings can observe it: numbers
and booleans carry no payload, arrays keep their elements, objects keep their
members in source order (duplicates included). -/
inductive JValue
  | null
  | bool
  | number
  | string (s : List Byte)
  | array (elems : List JValue)
  | object (members : List (List Byte × JValue))

/-- The function `isSpace` of `scanner.go`: space, tab, carriage return, line
feed. -/
def isSpace (c : Byte) : Bool :=
  decide (c.val = 32) || decide (c.val = 9) || decide (c.val = 13) || decide (c.val = 10)

/-- Skip insignificant white space. -/
def skipSpace : List Byte → List Byte
  | [] => []
  | c :: s => if isSpace c then skipSpace s else c :: s

/-- Value of a hexadecimal digit, either case. -/
def hexVal (c : Byte) : Option Nat :=
  if 48 ≤ c.val ∧ c.val ≤ 57 then some (c.val - 48)
  else if 97 ≤ c.val ∧ c.val ≤ 102 then some (c.val - 87)
  else if 65 ≤ c.val ∧ c.val ≤ 70 then some (c.val - 55)
  else none

/-- The four hexadecimal digits of a `\u` escape (`getu4` without the prefix). -/
def hex4 (a b c d : Byte) : Option Nat :=
  match hexVal a, hexVal b, hexVal c, hexVal d with
  | some a, some b, some c, some d => some (a * 4096 + b * 256 + c * 16 + d)
  | _, _, _, _ => none

/-- The function `getu4`: the code unit of a leading `\uXXXX`, with what follows. -/
def getu4 : List Byte → Option (Nat × List Byte)
  | b :: u :: x1 :: x2 :: x3 :: x4 :: rest =>
    if b.val = 92 ∧ u.val = 117 then (hex4 x1 x2 x3 x4).map (fun n => (n, rest)) else none
  | _ => none

/-- The predicate `utf16.IsSurrogate`. -/
def isSurrogate (n : Nat) : Bool := decide (55296 ≤ n) && decide (n < 57344)

/-- The function `utf16.DecodeRune`: the scalar of a valid surrogate pair. -/
def decodeSurrogates (r1 r2 : Nat) : Option Nat :=
  if 55296 ≤ r1 ∧ r1 < 56320 ∧ 56320 ≤ r2 ∧ r2 < 57344 then
    some ((r1 - 55296) * 1024 + (r2 - 56320) + 65536)
  else none

/-- The single-character escapes a string literal may contain, by the byte after
the backslash: quote, backslash, slash, `b`, `f`, `n`, `r`, `t`. -/
def simpleEscape (e : Byte) : Option Nat :=
  if e.val = 34 then some 34
  else if e.val = 92 then some 92
  else if e.val = 47 then some 47
  else if e.val = 98 then some 8
  else if e.val = 102 then some 12
  else if e.val = 110 then some 10
  else if e.val = 114 then some 13
  else if e.val = 116 then some 9
  else none

/-- Prepend decoded bytes to the result of decoding the rest. -/
def consBytes (p : List Byte) : Option (List Byte × List Byte) → Option (List Byte × List Byte)
  | some (s, rest) => some (p ++ s, rest)
  | none => none

/-- One escape sequence, given what follows the backslash: the decoded rune and
the number of bytes consumed after the backslash.  A `\u` escape needs four
hexadecimal digits; a surrogate followed by a `\u` escape that completes a valid
pair gives one scalar and consumes both escapes, any other surrogate gives U+FFFD
and consumes only itself. -/
def decodeEscape : List Byte → Option (Nat × Nat)
  | [] => none
  | e :: rest1 =>
    if e.val = 117 then
      match rest1 with
      | x1 :: x2 :: x3 :: x4 :: rest2 =>
        match hex4 x1 x2 x3 x4 with
        | none => none
        | some rr =>
          if isSurrogate rr then
            match getu4 rest2 with
            | some (rr1, _) =>
              match decodeSurrogates rr rr1 with
              | some dec => some (dec, 11)
              | none => some (utf8.RuneError, 5)
            | none => some (utf8.RuneError, 5)
          else some (rr, 5)
      | _ => none
    else
      match simpleEscape e with
      | some ch => some (ch, 1)
      | none => none

/-- The loop of `unquote`, with the scanner's validity rules (no raw control
character, only the known escapes).  The first argument counts the bytes already
consumed ahead of the read position.  A byte sequence outside ASCII is decoded as
UTF-8 and written back encoded, so an invalid byte becomes U+FFFD.  Returns the
decoded bytes and what follows the closing quote. -/
def unquoteFrom : Nat → List Byte → Option (List Byte × List Byte)
  | _, [] => none
  | skip + 1, _ :: rest => unquoteFrom skip rest
  | 0, c :: rest =>
    if c.val = 34 then some ([], rest)
    else if c.val = 92 then
      match decodeEscape rest with
      | some (rr, used) => consBytes (utf8.EncodeRune rr) (unquoteFrom used rest)
      | none => none
    else if c.val < 32 then none
    else if c.val < 128 then consBytes [c] (unquoteFrom 0 rest)
    else
      consBytes (utf8.EncodeRune (utf8.DecodeRune (c :: rest)).1)
        (unquoteFrom ((utf8.DecodeRune (c :: rest)).2 - 1) rest)

/-- A string literal after its opening quote. -/
def unquote (s : List Byte) : Option (List Byte × List Byte) :=
  unquoteFrom 0 s

/-- Decimal digit. -/
def isDigit (c : Byte) : Bool := decide (48 ≤ c.val) && decide (c.val ≤ 57)

/-- Skip a run of digits. -/
def skipDigits : List Byte → List Byte
  | [] => []
  | c :: s => if isDigit c then skipDigits s else c :: s

/-- At least one digit, then any further digits. -/
def digits1 : List Byte → Option (List Byte)
  | [] => none
  | c :: s => if isDigit c then some (skipDigits s) else none

/-- Optional exponent of a number (`stateE`, `stateESign`, `stateE0`): `e` or `E`,
an optional sign, digits. -/
def scanExp : List Byte → Option (List Byte)
  | [] => some []
  | c :: s =>
    if c.val = 101 ∨ c.val = 69 then
      match s with
      | [] => none
      | d :: s1 => if d.val = 43 ∨ d.val = 45 then digits1 s1 else digits1 (d :: s1)
    else some (c :: s)

/-- Optional fraction (a point and digits), then optional exponent (`state0`,
`stateDot`, `stateDot0`). -/
def scanFrac : List Byte → Option (List Byte)
  | [] => some []
  | c :: s =>
    if c.val = 46 then
      match digits1 s with
      | some rest => scanExp rest
      | none => none
    else scanExp (c :: s)

/-- Integer part without sign: a single `0`, or a non-zero digit and more digits. -/
def scanInt : List Byte → Option (List Byte)
  | [] => none
  | c :: s =>
    if c.val = 48 then scanFrac s
    else if isDigit c then scanFrac (skipDigits s)
    else none

/-- A number literal, with its optional minus sign; returns what follows it. -/
def scanNumber : List Byte → Option (List Byte)
  | [] => none
  | c :: s => if c.val = 45 then scanInt s else scanInt (c :: s)

/-- Expect the exact bytes `lit` (the tail of `true`, `false`, `null`). -/
def expect : List Byte → List Byte → Option (List Byte)
  | [], s => some s
  | _ :: _, [] => none
  | l :: lit, c :: s => if l = c then expect lit s else none

/-- The constant `maxNestingDepth` of `scanner.go`. -/
def maxNestingDepth : Nat := 10000

mutual

/-- One JSON value at the head of the input (white space already skipped), at
nesting depth `depth`; an object or array deeper than `maxNestingDepth` is an
error.  The first argument bounds the number of nested calls; every call consumes
at least one byte, so the input length plus one is always enough. -/
def parseValue : Nat → Nat → List Byte → Option (JValue × List Byte)
  | 0, _, _ => none
  | _ + 1, _, [] => none
  | fuel + 1, depth, c :: rest =>
    if c.val = 123 then
      if maxNestingDepth ≤ depth then none
      else
        match skipSpace rest with
        | [] => none
        | d :: rest1 =>
          if d.val = 125 then some (JValue.object [], rest1)
          else
            match parseMembers fuel (depth + 1) (d :: rest1) with
            | some (ms, rest2) => some (JValue.object ms, rest2)
            | none => none
    else if c.val = 91 then
      if maxNestingDepth ≤ depth then none
      else
        match skipSpace rest with
        | [] => none
        | d :: rest1 =>
          if d.val = 93 then some (JValue.array [], rest1)
          else
            match parseValue fuel (depth + 1) (d :: rest1) with
            | none => none
            | some (v, rest2) =>
              match parseElements fuel (depth + 1) rest2 with
              | some (es, rest3) => some (JValue.array (v :: es), rest3)
              | none => none
    else if c.val = 34 then
      match unquote rest with
      | some (s, rest1) => some (JValue.string s, rest1)
      | none => none
    else if c.val = 116 then (expect [114, 117, 101] rest).map (fun r => (JValue.bool, r))
    else if c.val = 102 then
      (expect [97, 108, 115, 101] rest).map (fun r => (JValue.bool, r))
    else if c.val = 110 then (expect [117, 108, 108] rest).map (fun r => (JValue.null, r))
    else (scanNumber (c :: rest)).map (fun r => (JValue.number, r))

/-- The members of an object from the first key on, up to and including the
closing brace; `depth` is the depth of the member values. -/
def parseMembers : Nat → Nat → List Byte → Option (List (List Byte × JValue) × List Byte)
  | 0, _, _ => none
  | _ + 1, _, [] => none
  | fuel + 1, depth, c :: rest =>
    if c.val = 34 then
      match unquote rest with
      | none => none
      | some (key, rest1) =>
        match skipSpace rest1 with
        | [] => none
        | d :: rest2 =>
          if d.val = 58 then
            match parseValue fuel depth (skipSpace rest2) with
            | none => none
            | some (v, rest3) =>
              match skipSpace rest3 with
              | [] => none
              | e :: rest4 =>
                if e.val = 44 then
                  match parseMembers fuel depth (skipSpace rest4) with
                  | some (ms, rest5) => some ((key, v) :: ms, rest5)
                  | none => none
                else if e.val = 125 then some ([(key, v)], rest4)
                else none
          else none
    else none

/-- The rest of an array after one of its elements: the closing bracket, or a
comma, another element and the rest again.  Returns the further elements. -/
def parseElements : Nat → Nat → List Byte → Option (List JValue × List Byte)
  | 0, _, _ => none
  | fuel + 1, depth, s =>
    match skipSpace s with
    | [] => none
    | e :: rest1 =>
      if e.val = 44 then
        match parseValue fuel depth (skipSpace rest1) with
        | none => none
        | some (v, rest2) =>
          match parseElements fuel depth rest2 with
          | some (es, rest3) => some (v :: es, rest3)
          | none => none
      else if e.val = 93 then some ([], rest1)
      else none

end

/-- The function `checkValid` together with the parse: the whole input must be
one JSON value surrounded by optional white space. -/
def parse (data : List Byte) : Option JValue :=
  match parseValue (data.length + 1) 0 (skipSpace data) with
  | some (v, rest) =>
    match skipSpace rest with
    | [] => some v
    | _ :: _ => none
  | none => none

/-- The function `foldName` on the bytes of an object key, as far as it can
reach an ASCII letter: an ASCII lower-case letter becomes upper case, the long s
(U+017F, bytes 197 191) becomes `S` and the Kelvin sign (U+212A, bytes 226 132
170) becomes `K`; other bytes are kept. -/
def foldName : List Byte → List Byte
  | [] => []
  | b :: rest =>
    if 97 ≤ b.val ∧ b.val ≤ 122 then byte (b.val - 32) :: foldName rest
    else
      match rest with
      | c :: rest1 =>
        if b.val = 197 ∧ c.val = 191 then 83 :: foldName rest1
        else
          match rest1 with
          | d :: rest2 =>
            if b.val = 226 ∧ c.val = 132 ∧ d.val = 170 then 75 :: foldName rest2
            else b :: foldName (c :: d :: rest2)
          | [] => b :: foldName [c]
      | [] => [b]

/-- Field lookup of the struct decoder: an exact tag match wins, otherwise the
first field whose folded tag equals the folded key. -/
def findField (key : List Byte) : Option Field :=
  match Field.all.find? (fun f => decide (f.tag = key)) with
  | some f => some f
  | none => Field.all.find? (fun f => decide (foldName f.tag = foldName key))

/-- The two kinds of error `Unmarshal` can return. -/
inductive UnmarshalError
  | SyntaxError
  | UnmarshalTypeError
deriving DecidableEq, Repr

/-- The method `saveError`: the first error is kept. -/
def saveError (saved : Option UnmarshalError) (e : UnmarshalError) : Option UnmarshalError :=
  match saved with
  | some e0 => some e0
  | none => some e

/-- One member of the top-level object: a string value is stored into the
matching field, `null` leaves it alone, any other value is a type error and
leaves it alone; a key matching no field is skipped. -/
def decodeMember (acc : Invoice × Option UnmarshalError) (m : List Byte × JValue) :
    Invoice × Option UnmarshalError :=
  match findField m.1 with
  | none => acc
  | some f =>
    match m.2 with
    | JValue.string s => (acc.1.set f s, acc.2)
    | JValue.null => acc
    | _ => (acc.1, saveError acc.2 UnmarshalError.UnmarshalTypeError)

/-- `json.Unmarshal(data, &v)`: the updated struct and the returned error.
Invalid JSON leaves the struct untouched; `null` is a no-op; any top-level value
other than an object or `null` is a type error. -/
def Unmarshal (data : GoString) (v : Invoice) : Invoice × Option UnmarshalError :=
  match parse data with
  | none => (v, some UnmarshalError.SyntaxError)
  | some (JValue.object ms) => ms.foldl decodeMember (v, none)
  | some JValue.null => (v, none)
  | some _ => (v, some UnmarshalError.UnmarshalTypeError)

/-! ### Auxiliary definitions for the round-trip proof -/

/-- Shape check relating a rune to the escape text written for it: the ASCII
byte itself (not a quote, backslash or control character), a two-byte escape
decoding to it, or a `\u` escape with its code. -/
def escapeOK (r : Nat) (l : List Byte) : Bool :=
  match l with
  | [a] => decide (a.val = r) && decide (r ≠ 34) && decide (r ≠ 92) && decide (32 ≤ r)
      && decide (r < 128)
  | [a, e] => decide (a.val = 92) && decide (e.val ≠ 117) && decide (simpleEscape e = some r)
  | [a, u, x1, x2, x3, x4] =>
    decide (a.val = 92) && decide (u.val = 117) && decide (hex4 x1 x2 x3 x4 = some r)
      && !isSurrogate r
  | _ => false

/-! ### Coercion to valid UTF-8 -/

/-- What a string becomes when it is encoded and decoded again: every maximal
valid UTF-8 sequence is kept and every other byte is replaced by U+FFFD.  The
first argument counts the bytes of the current sequence already dealt with. -/
def coerceFrom : Nat → List Byte → List Byte
  | _, [] => []
  | skip + 1, _ :: rest => coerceFrom skip rest
  | 0, b :: rest =>
    utf8.EncodeRune (utf8.DecodeRune (b :: rest)).1
      ++ coerceFrom ((utf8.DecodeRune (b :: rest)).2 - 1) rest

/-- The string coerced to valid UTF-8, invalid bytes replaced by U+FFFD. -/
def coerceUTF8 (s : GoString) : GoString := coerceFrom 0 s

/-- The parsed members of the object the encoder writes for a list of fields. -/
def membersOf (v : Invoice) (fs : List Field) : List (List Byte × JValue) :=
  fs.map (fun f => (f.tag, JValue.string (coerceUTF8 (v.get f))))

end json

/-- The record with every field coerced to valid UTF-8. -/
def Invoice.coerce (v : Invoice) : Invoice :=
  ⟨json.coerceUTF8 v.InvoiceNumber, json.coerceUTF8 v.BilledTo, json.coerceUTF8 v.InvoiceDate,
    json.coerceUTF8 v.InvoiceAmount, json.coerceUTF8 v.ItemDescription, json.coerceUTF8 v.GR,
    json.coerceUTF8 v.IsPaid, json.coerceUTF8 v.PaidAmount, json.coerceUTF8 v.Repaid,
    json.coerceUTF8 v.RepaymentAmount⟩

/-- Every field of the record is valid UTF-8. -/
def Invoice.valid (v : Invoice) : Bool :=
  Field.all.all (fun f => utf8.Valid (v.get f))

/-! ## The ledger and the chaincode stub -/

/-- Go's built-in `<` on strings: lexicographic on bytes, a proper prefix is
smaller. -/
def stringLess : List Byte → List Byte → Bool
  | _, [] => false
  | [], _ :: _ => true
  | a :: s, b :: t => decide (a.val < b.val) || (decide (a = b) && stringLess s t)

/-- The world state: key/value entries. -/
abbrev Ledger := List (GoString × GoString)

/-- The committed value of a key, if any. -/
def Ledger.get? : Ledger → GoString → Option GoString
  | [], _ => none
  | (k, v) :: rest, key => if k = key then some v else Ledger.get? rest key

/-- Write a key: an existing entry is replaced in place, a new entry is inserted
before the first greater key, so that an ordered world state stays ordered. -/
def Ledger.put : Ledger → GoString → GoString → Ledger
  | [], key, value => [(key, value)]
  | (k, v) :: rest, key, value =>
    if stringLess key k then (key, value) :: (k, v) :: rest
    else if k = key then (key, value) :: rest
    else (k, v) :: Ledger.put rest key value

/-- The keys of the world state are strictly increasing. -/
def Ledger.ordered (l : Ledger) : Prop :=
  l.Pairwise (fun a b => stringLess a.1 b.1 = true)

/-- One entry of a range scan or rich query (`queryresult.KV`). -/
structure KV where
  Key : GoString
  Value : GoString
deriving DecidableEq, Repr

/-- One entry of a key history (`queryresult.KeyModification`); the timestamp
is the pair (seconds, nanos). -/
structure KeyModification where
  TxId : GoString
  Value : GoString
  Seconds : Int
  Nanos : Int
deriving DecidableEq, Repr

/-- The stored entries with `startKey <= key < endKey`, in ledger order. -/
def scanRange (l : Ledger) (startKey endKey : GoString) : List KV :=
  (l.filter (fun e => !stringLess e.1 startKey && stringLess e.1 endKey)).map
    (fun e => KV.mk e.1 e.2)

/-- A call made on the stub. -/
inductive StubCall
  | GetState (key : GoString)
  | PutState (key value : GoString)
  | GetStateByRange (startKey endKey : GoString)
  | GetQueryResult (query : GoString)
  | GetHistoryForKey (key : GoString)
deriving DecidableEq, Repr

/-- The chaincode stub as one invocation sees it: the world state and the stub
calls made so far, oldest first. -/
structure ChaincodeStub where
  state : Ledger
  calls : List StubCall
deriving DecidableEq, Repr

/-- An iterator as the list of results its successive `Next` calls give;
`HasNext` is false at the end of the list. -/
abbrev Iterator (α : Type) := List (Except GoString α)

/-- What the ledger backend answers to the calls the chaincode cannot answer from
the world state alone, and the local rendering of a time. -/
structure Backend where
  GetStateByRange : Ledger → GoString → GoString → Except GoString (Iterator KV)
  GetQueryResult : Ledger → GoString → Except GoString (Iterator KV)
  GetHistoryForKey : Ledger → GoString → Except GoString (Iterator KeyModification)
  timeString : Int → Int → GoString

/-- Append a call to the trace. -/
def ChaincodeStub.record (stub : ChaincodeStub) (c : StubCall) : ChaincodeStub :=
  { stub with calls := stub.calls ++ [c] }

/-- `APIstub.GetState(key)`: the committed bytes, empty when the key is absent. -/
def ChaincodeStub.GetState (stub : ChaincodeStub) (key : GoString) : GoString × ChaincodeStub :=
  ((stub.state.get? key).getD [], stub.record (StubCall.GetState key))

/-- `APIstub.PutState(key, value)`: the error it returns, if any, and the stub
after the call.  The shim refuses the empty key with an error and writes nothing;
any other key is written. -/
def ChaincodeStub.PutState (stub : ChaincodeStub) (key value : GoString) :
    Option GoString × ChaincodeStub :=
  if key = [] then
    (some (go "key must not be an empty string"), stub.record (StubCall.PutState key value))
  else
    (none, { state := stub.state.put key value,
             calls := stub.calls ++ [StubCall.PutState key value] })

/-- The response message `pb.Response`. -/
structure Response where
  Status : Nat
  Message : GoString
  Payload : GoString
deriving DecidableEq, Repr

namespace shim

/-- `shim.Success(payload)`; a nil payload is the empty byte string. -/
def Success (payload : GoString) : Response := ⟨200, [], payload⟩

/-- `shim.Error(msg)`. -/
def Error (msg : GoString) : Response := ⟨500, msg, []⟩

end shim

/-! ## The handlers of `fabinvoice.go`

A handler returns `none` when it panics (an index out of range), otherwise the
response and the stub after its calls.  The handlers call `PutState` as a
statement, so the error it may return is dropped.  Output to standard output is
not modelled. -/

/-- The loop shared by `queryAllinvoices` (`opening` is the text that opens an
entry up to its label, with label `Invoice`) and `getQueryResultForQueryString`
(label `Key`): `buffer` is the text written so far, `written` the flag
`bArrayMemberAlreadyWritten`.  An iterator error ends the loop with that error. -/
def writeResults (opening : GoString) :
    Iterator KV → GoString → Bool → Except GoString GoString
  | [], buffer, _ => Except.ok buffer
  | Except.error err :: _, _, _ => Except.error err
  | Except.ok queryResponse :: rest, buffer, written =>
    let buffer := if written = true then buffer ++ go "," else buffer
    let buffer := buffer ++ opening
    let buffer := buffer ++ go "\""
    let buffer := buffer ++ queryResponse.Key
    let buffer := buffer ++ go "\""
    let buffer := buffer ++ go ", \"Record\":"
    let buffer := buffer ++ queryResponse.Value
    let buffer := buffer ++ go "\x7d"
    writeResults opening rest buffer true

/-- The helper `getQueryResultForQueryString`. -/
def getQueryResultForQueryString (b : Backend) (stub : ChaincodeStub) (queryString : GoString) :
    Except GoString GoString × ChaincodeStub :=
  let stub1 := stub.record (StubCall.GetQueryResult queryString)
  match b.GetQueryResult stub.state queryString with
  | Except.error err => (Except.error err, stub1)
  | Except.ok resultsIterator =>
    match writeResults (go "\x7b\"Key\":") resultsIterator (go "[") false with
    | Except.error err => (Except.error err, stub1)
    | Except.ok buffer => (Except.ok (buffer ++ go "]"), stub1)

/-- The handler `newInvoice`. -/
def newInvoice (stub : ChaincodeStub) (args : List GoString) :
    Option (Response × ChaincodeStub) :=
  if args.length ≠ 11 then
    some (shim.Error (go "Incorrect number of arguments. Expecting 11"), stub)
  else do
    let invoice : Invoice :=
      { InvoiceNumber := ← args[1]?, BilledTo := ← args[2]?, InvoiceDate := ← args[3]?,
        InvoiceAmount := ← args[4]?, ItemDescription := ← args[5]?, GR := ← args[6]?,
        IsPaid := ← args[7]?, PaidAmount := ← args[8]?, Repaid := ← args[9]?,
        RepaymentAmount := ← args[10]? }
    let invoiceAsBytes := json.Marshal invoice
    let (_, stub) := stub.PutState (← args[0]?) invoiceAsBytes
    some (shim.Success [], stub)

/-- The handler `createInvoiceWithJsonInput`.  The guard compares the count with
1 and the body then reads `args[1]`. -/
def createInvoiceWithJsonInput (stub : ChaincodeStub) (args : List GoString) :
    Option (Response × ChaincodeStub) :=
  if args.length ≠ 1 then
    some (shim.Error (go "Incorrect number of arguments. Expecting 5"), stub)
  else do
    let _ ← args[1]?
    let invoiceAsBytes ← args[1]?
    let invoice := Invoice.zero
    let err := (json.Unmarshal invoiceAsBytes invoice).2
    if err ≠ none then
      some (shim.Error (go "Error During Invoice Unmarshall"), stub)
    else
      let (_, stub) := stub.PutState (← args[0]?) invoiceAsBytes
      some (shim.Success [], stub)

/-- The handler `queryAllinvoices`. -/
def queryAllinvoices (b : Backend) (stub : ChaincodeStub) : Option (Response × ChaincodeStub) :=
  let startKey := go "INV0"
  let endKey := go "INV999"
  let stub1 := stub.record (StubCall.GetStateByRange startKey endKey)
  match b.GetStateByRange stub.state startKey endKey with
  | Except.error err => some (shim.Error err, stub1)
  | Except.ok resultsIterator =>
    match writeResults (go "\x7b\"Invoice\":") resultsIterator (go "[") false with
    | Except.error err => some (shim.Error err, stub1)
    | Except.ok buffer => some (shim.Success (buffer ++ go "]"), stub1)

/-- The handler `isGoodsReceived`. -/
def isGoodsReceived (stub : ChaincodeStub) (args : List GoString) :
    Option (Response × ChaincodeStub) :=
  if args.length ≠ 2 then
    some (shim.Error (go "Incorrect number of arguments. Expecting 2"), stub)
  else do
    let (invoiceAsBytes, stub) := stub.GetState (← args[0]?)
    let invoice := Invoice.zero
    let invoice := (json.Unmarshal invoiceAsBytes invoice).1
    let invoice := { invoice with GR := ← args[1]? }
    let invoiceAsBytes := json.Marshal invoice
    let (_, stub) := stub.PutState (← args[0]?) invoiceAsBytes
    some (shim.Success [], stub)

/-- The handler `isPaidToSupplier`. -/
def isPaidToSupplier (stub : ChaincodeStub) (args : List GoString) :
    Option (Response × ChaincodeStub) :=
  if args.length ≠ 3 then
    some (shim.Error (go "Incorrect number of arguments. Expecting 3"), stub)
  else do
    let (invoiceAsBytes, stub) := stub.GetState (← args[0]?)
    let invoice := Invoice.zero
    let invoice := (json.Unmarshal invoiceAsBytes invoice).1
    let invoice := { invoice with PaidAmount := ← args[1]? }
    let invoice := { invoice with IsPaid := ← args[2]? }
    let invoiceAsBytes := json.Marshal invoice
    let (_, stub) := stub.PutState (← args[0]?) invoiceAsBytes
    some (shim.Success [], stub)

/-- The handler `isPaidToBank`. -/
def isPaidToBank (stub : ChaincodeStub) (args : List GoString) :
    Option (Response × ChaincodeStub) :=
  if args.length ≠ 3 then
    some (shim.Error (go "Incorrect number of arguments. Expecting 3"), stub)
  else do
    let (invoiceAsBytes, stub) := stub.GetState (← args[0]?)
    let invoice := Invoice.zero
    let invoice := (json.Unmarshal invoiceAsBytes invoice).1
    let invoice := { invoice with RepaymentAmount := ← args[1]? }
    let invoice := { invoice with Repaid := ← args[2]? }
    let invoiceAsBytes := json.Marshal invoice
    let (_, stub) := stub.PutState (← args[0]?) invoiceAsBytes
    some (shim.Success [], stub)

/-- The handler `getUser`: its body is commented out, it returns an empty success. -/
def getUser (stub : ChaincodeStub) (_args : List GoString) :
    Option (Response × ChaincodeStub) :=
  some (shim.Success [], stub)

/-- The loop of `getHistoryForInvoice`. -/
def writeHistory (timeString : Int → Int → GoString) :
    Iterator KeyModification → GoString → Bool → Except GoString GoString
  | [], buffer, _ => Except.ok buffer
  | Except.error err :: _, _, _ => Except.error err
  | Except.ok response :: rest, buffer, written =>
    let buffer := if written = true then buffer ++ go "," else buffer
    let buffer := buffer ++ go "\x7b\"TxId\":"
    let buffer := buffer ++ go "\""
    let buffer := buffer ++ response.TxId
    let buffer := buffer ++ go "\""
    let buffer := buffer ++ go ", \"Value\":"
    let buffer := buffer ++ response.Value
    let buffer := buffer ++ go ", \"Timestamp\":"
    let buffer := buffer ++ go "\""
    let buffer := buffer ++ timeString response.Seconds response.Nanos
    let buffer := buffer ++ go "\""
    let buffer := buffer ++ go "\x7d"
    writeHistory timeString rest buffer true

/-- The handler `getHistoryForInvoice`. -/
def getHistoryForInvoice (b : Backend) (stub : ChaincodeStub) (args : List GoString) :
    Option (Response × ChaincodeStub) :=
  if args.length < 1 then
    some (shim.Error (go "Incorrect number of arguments. Expecting 1"), stub)
  else do
    let invoiceKey ← args[0]?
    let stub1 := stub.record (StubCall.GetHistoryForKey invoiceKey)
    match b.GetHistoryForKey stub.state invoiceKey with
    | Except.error err => some (shim.Error err, stub1)
    | Except.ok resultsIterator =>
      match writeHistory b.timeString resultsIterator (go "[") false with
      | Except.error err => some (shim.Error err, stub1)
      | Except.ok buffer => some (shim.Success (buffer ++ go "]"), stub1)

/-- The method `Invoke`: `function` and `args` are what
`GetFunctionAndParameters` returns. -/
def Invoke (b : Backend) (stub : ChaincodeStub) (function : GoString) (args : List GoString) :
    Option (Response × ChaincodeStub) :=
  if function = go "newInvoice" then newInvoice stub args
  else if function = go "queryAllInvoices" then queryAllinvoices b stub
  else if function = go "getUser" then getUser stub args
  else if function = go "createInvoiceWithJsonInput" then createInvoiceWithJsonInput stub args
  else if function = go "isGoodsReceived" then isGoodsReceived stub args
  else if function = go "isPaidToSupplier" then isPaidToSupplier stub args
  else if function = go "isPaidToBank" then isPaidToBank stub args
  else if function = go "getHistoryForInvoice" then getHistoryForInvoice b stub args
  else some (shim.Error (go "Invalid Smart Contract function name."), stub)

/-! ## The response shapes in the words of the specification -/

/-- Join byte strings with a separator between consecutive ones. -/
def joinWith (sep : GoString) : List GoString → GoString
  | [] => []
  | [x] => x
  | x :: y :: rest => x ++ sep ++ joinWith sep (y :: rest)

/-- One entry of a multi-record response: the label, the key in quotes, and the
stored bytes verbatim as the record. -/
def envelopeEntry (label : GoString) (e : KV) : GoString :=
  go "\x7b\"" ++ label ++ go "\":\"" ++ e.Key ++ go "\", \"Record\":" ++ e.Value ++ go "\x7d"

/-- A multi-record response: the entries joined by single commas, in brackets. -/
def envelope (label : GoString) (es : List KV) : GoString :=
  go "[" ++ joinWith (go ",") (es.map (envelopeEntry label)) ++ go "]"

/-- One entry of a history response. -/
def historyEntry (timeString : Int → Int → GoString) (m : KeyModification) : GoString :=
  go "\x7b\"TxId\":\"" ++ m.TxId ++ go "\", \"Value\":" ++ m.Value ++ go ", \"Timestamp\":\""
    ++ timeString m.Seconds m.Nanos ++ go "\"\x7d"

/-- A history response: one entry per modification, in order, joined by commas. -/
def historyEnvelope (timeString : Int → Int → GoString) (h : List KeyModification) : GoString :=
  go "[" ++ joinWith (go ",") (h.map (historyEntry timeString)) ++ go "]"

/-! ## Sample data -/

/-- A sample record. -/
def sampleInvoice : Invoice :=
  ⟨go "1001", go "Acme", go "2018-06-01", go "1000", go "widgets", go "N", go "N", go "0",
    go "N", go "0"⟩

/-- A sample history of two writes. -/
def sampleHistory : List KeyModification :=
  [⟨go "tx1", go "\x7b\"gr\":\"N\"\x7d", 1528000000, 0⟩,
   ⟨go "tx2", go "\x7b\"gr\":\"Y\"\x7d", 1528000060, 500⟩]

/-- A backend whose range scan yields the stored entries of the window in ledger
order, whose rich query matches every stored entry, and which reports
`sampleHistory` for every key. -/
def sampleBackend : Backend where
  GetStateByRange := fun l s e => Except.ok ((scanRange l s e).map Except.ok)
  GetQueryResult := fun l _ => Except.ok ((l.map (fun e => KV.mk e.1 e.2)).map Except.ok)
  GetHistoryForKey := fun _ _ => Except.ok (sampleHistory.map Except.ok)
  timeString := fun s _ => if s = 1528000000 then go "2018-06-03 04:26:40 +0000 UTC"
    else go "2018-06-03 04:27:40.0000005 +0000 UTC"

/-- A sample stub: four stored keys, one below the scan window, two inside it and
one equal to its end key; no call made yet. -/
def sampleStub : ChaincodeStub where
  state := [(go "A1", go "\x7b\x7d"), (go "INV0", json.Marshal sampleInvoice),
    (go "INV5", go "\x7b\"gr\":\"Y\"\x7d"), (go "INV999", go "\x7b\x7d")]
  calls := []

/-- A byte string that is not valid UTF-8: the digit 5 followed by the byte 255. -/
def sampleInvalid : GoString := [53, 255]

/-- A record with a field that is not valid UTF-8. -/
def sampleInvalidInvoice : Invoice :=
  { Invoice.zero with BilledTo := sampleInvalid }

/-- A stub whose key `INV1` holds the encoding of `sampleInvalidInvoice`. -/
def sampleInvalidStub : ChaincodeStub where
  state := [(go "INV1", json.Marshal sampleInvalidInvoice)]
  calls := []

/-! ## The second chaincode, `invoice.go`

Its record type `Car` has the ten fields of `Invoice`; only the tag of
`RepaymentAmount` differs.  Its handlers share the stub, the backend and the
response type with `fabinvoice.go`. -/

/-- The `Car` struct of `invoice.go`: ten string fields. -/
structure Car where
  InvoiceNumber : GoString
  BilledTo : GoString
  InvoiceDate : GoString
  InvoiceAmount : GoString
  ItemDescription : GoString
  GR : GoString
  IsPaid : GoString
  PaidAmount : GoString
  Repaid : GoString
  RepaymentAmount : GoString
deriving DecidableEq, Repr

/-- The zero value `Car{}`. -/
def Car.zero : Car := ⟨[], [], [], [], [], [], [], [], [], []⟩

/-- The `json:"..."` tag of each field of `Car`. -/
def Field.carTag : Field → GoString
  | .InvoiceNumber => go "invoiceNumber"
  | .BilledTo => go "billedTo"
  | .InvoiceDate => go "invoiceDate"
  | .InvoiceAmount => go "invoiceAmount"
  | .ItemDescription => go "itemDescription"
  | .GR => go "gr"
  | .IsPaid => go "isPaid"
  | .PaidAmount => go "paidAmount"
  | .Repaid => go "repaid"
  | .RepaymentAmount => go "repayment"

/-- Read a field of a `Car`. -/
def Car.get (v : Car) : Field → GoString
  | .InvoiceNumber => v.InvoiceNumber
  | .BilledTo => v.BilledTo
  | .InvoiceDate => v.InvoiceDate
  | .InvoiceAmount => v.InvoiceAmount
  | .ItemDescription => v.ItemDescription
  | .GR => v.GR
  | .IsPaid => v.IsPaid
  | .PaidAmount => v.PaidAmount
  | .Repaid => v.Repaid
  | .RepaymentAmount => v.RepaymentAmount

/-- Store into a field of a `Car`. -/
def Car.set (v : Car) (f : Field) (s : GoString) : Car :=
  match f with
  | .InvoiceNumber => { v with InvoiceNumber := s }
  | .BilledTo => { v with BilledTo := s }
  | .InvoiceDate => { v with InvoiceDate := s }
  | .InvoiceAmount => { v with InvoiceAmount := s }
  | .ItemDescription => { v with ItemDescription := s }
  | .GR => { v with GR := s }
  | .IsPaid => { v with IsPaid := s }
  | .PaidAmount => { v with PaidAmount := s }
  | .Repaid => { v with Repaid := s }
  | .RepaymentAmount => { v with RepaymentAmount := s }

namespace json

/-- The loop of `structEncoder.encode` after the first field, for a `Car`. -/
def encodeCarRest (v : Car) : List Field → List Byte
  | [] => [125]
  | f :: fs =>
    44 :: (appendString f.carTag ++ 58 :: (appendString (v.get f) ++ encodeCarRest v fs))

/-- The function `structEncoder.encode`, for a `Car`. -/
def encodeCarStruct (v : Car) : List Field → List Byte
  | [] => [123, 125]
  | f :: fs =>
    123 :: (appendString f.carTag ++ 58 :: (appendString (v.get f) ++ encodeCarRest v fs))

/-- `json.Marshal(car)`. -/
def MarshalCar (v : Car) : GoString :=
  encodeCarStruct v Field.all

/-- Field lookup of the struct decoder for `Car`: an exact tag match wins,
otherwise the first field whose folded tag equals the folded key. -/
def findCarField (key : List Byte) : Option Field :=
  match Field.all.find? (fun f => decide (f.carTag = key)) with
  | some f => some f
  | none => Field.all.find? (fun f => decide (foldName f.carTag = foldName key))

/-- One member of the top-level object, decoded into a `Car`. -/
def decodeCarMember (acc : Car × Option UnmarshalError) (m : List Byte × JValue) :
    Car × Option UnmarshalError :=
  match findCarField m.1 with
  | none => acc
  | some f =>
    match m.2 with
    | JValue.string s => (acc.1.set f s, acc.2)
    | JValue.null => acc
    | _ => (acc.1, saveError acc.2 UnmarshalError.UnmarshalTypeError)

/-- `json.Unmarshal(data, &car)`: the updated struct and the returned error. -/
def UnmarshalCar (data : GoString) (v : Car) : Car × Option UnmarshalError :=
  match parse data with
  | none => (v, some UnmarshalError.SyntaxError)
  | some (JValue.object ms) => ms.foldl decodeCarMember (v, none)
  | some JValue.null => (v, none)
  | some _ => (v, some UnmarshalError.UnmarshalTypeError)

end json

namespace InvoiceGo

/-- The handler `queryCar`. -/
def queryCar (stub : ChaincodeStub) (args : List GoString) :
    Option (Response × ChaincodeStub) :=
  if args.length ≠ 1 then
    some (shim.Error (go "Incorrect number of arguments. Expecting 1"), stub)
  else do
    let (carAsBytes, stub) := stub.GetState (← args[0]?)
    some (shim.Success carAsBytes, stub)

/-- The slice `cars` of `initLedger`. -/
def initialCars : List Car :=
  [Car.mk [] (go "Unionbank") (go "10-30-2014") (go "10,000") (go "Debit Card") (go "N")
    (go "N") (go "0") (go "N") (go "0")]

/-- The loop of `initLedger` from index `i` on, over the cars not yet written;
`strconv.Itoa` is the decimal rendering of the index. -/
def initLedgerLoop : List Car → Nat → ChaincodeStub → ChaincodeStub
  | [], _, stub => stub
  | car :: rest, i, stub =>
    initLedgerLoop rest (i + 1)
      (stub.PutState (go "INVC" ++ go (Nat.repr i)) (json.MarshalCar car)).2

/-- The handler `initLedger`. -/
def initLedger (stub : ChaincodeStub) : Option (Response × ChaincodeStub) :=
  some (shim.Success [], initLedgerLoop initialCars 0 stub)

/-- The handler `createInvoice` (dispatched as `createCar`).  The guard compares
the count with 5 and the body then reads `args[1]` to `args[9]`. -/
def createInvoice (stub : ChaincodeStub) (args : List GoString) :
    Option (Response × ChaincodeStub) :=
  if args.length ≠ 5 then
    some (shim.Error (go "Incorrect number of arguments. Expecting 5"), stub)
  else do
    let car : Car :=
      { InvoiceNumber := [], BilledTo := ← args[1]?, InvoiceDate := ← args[2]?,
        InvoiceAmount := ← args[3]?, ItemDescription := ← args[4]?, GR := ← args[5]?,
        IsPaid := ← args[6]?, PaidAmount := ← args[7]?, Repaid := ← args[8]?,
        RepaymentAmount := ← args[9]? }
    let carAsBytes := json.MarshalCar car
    let (_, stub) := stub.PutState (← args[0]?) carAsBytes
    some (shim.Success [], stub)

/-- The handler `createCarWithJsonInput`. -/
def createCarWithJsonInput (stub : ChaincodeStub) (args : List GoString) :
    Option (Response × ChaincodeStub) :=
  if args.length ≠ 2 then
    some (shim.Error (go "Incorrect number of arguments. Expecting 5"), stub)
  else do
    let _ ← args[1]?
    let carAsBytes ← args[1]?
    let car := Car.zero
    let err := (json.UnmarshalCar carAsBytes car).2
    if err ≠ none then
      some (shim.Error (go "Error During Car Unmarshall"), stub)
    else
      let (_, stub) := stub.PutState (← args[0]?) carAsBytes
      some (shim.Success [], stub)

/-- The handler `queryAllInvoice`. -/
def queryAllInvoice (b : Backend) (stub : ChaincodeStub) : Option (Response × ChaincodeStub) :=
  let startKey := go "INVC0"
  let endKey := go "INVC999"
  let stub1 := stub.record (StubCall.GetStateByRange startKey endKey)
  match b.GetStateByRange stub.state startKey endKey with
  | Except.error err => some (shim.Error err, stub1)
  | Except.ok resultsIterator =>
    match writeResults (go "\x7b\"Key\":") resultsIterator (go "[") false with
    | Except.error err => some (shim.Error err, stub1)
    | Except.ok buffer => some (shim.Success (buffer ++ go "]"), stub1)

/-- The handler `getUser` of `invoice.go`: an empty success. -/
def getUser (stub : ChaincodeStub) (_args : List GoString) :
    Option (Response × ChaincodeStub) :=
  some (shim.Success [], stub)

/-- The method `Invoke` of `invoice.go`. -/
def Invoke (b : Backend) (stub : ChaincodeStub) (function : GoString) (args : List GoString) :
    Option (Response × ChaincodeStub) :=
  if function = go "queryCar" then queryCar stub args
  else if function = go "initLedger" then initLedger stub
  else if function = go "createCar" then createInvoice stub args
  else if function = go "queryAllInvoice" then queryAllInvoice b stub
  else if function = go "getUser" then getUser stub args
  else if function = go "createCarWithJsonInput" then createCarWithJsonInput stub args
  else some (shim.Error (go "Invalid Smart Contract function name."), stub)

end InvoiceGo

/-! ## UTF-8 encoding and decoding -/

namespace utf8

theorem byte_val (n : Nat) (h : n < 256) : (byte n).val = n := by
  simp [byte, Nat.mod_eq_of_lt h]

theorem byte_eq (b : Byte) (n : Nat) (h : b.val = n) : byte n = b := by
  apply Fin.ext
  have := b.isLt
  simp [byte, ← h, Nat.mod_eq_of_lt this]

theorem DecodeRune_EncodeRune (r : Nat) (tail : List Byte) (h : isScalar r) :
    DecodeRune (EncodeRune r ++ tail) = (r, (EncodeRune r).length) := by
  unfold isScalar at h
  unfold EncodeRune
  split
  · simp [DecodeRune, byte_val r (by omega)]
    omega
  · split
    · have h1 : (byte (192 + r / 64)).val = 192 + r / 64 := byte_val _ (by omega)
      have h2 : (byte (128 + r % 64)).val = 128 + r % 64 := byte_val _ (by omega)
      simp only [List.cons_append, List.nil_append, DecodeRune, h1, h2, List.length_cons,
        List.length_nil]
      rw [if_neg (by omega), if_neg (by omega), if_pos (by omega), if_pos (by omega)]
      simp only [Prod.mk.injEq, and_true]
      omega
    · split
      · omega
      · split
        · have h1 : (byte (224 + r / 4096)).val = 224 + r / 4096 := byte_val _ (by omega)
          have h2 : (byte (128 + r / 64 % 64)).val = 128 + r / 64 % 64 := byte_val _ (by omega)
          have h3 : (byte (128 + r % 64)).val = 128 + r % 64 := byte_val _ (by omega)
          simp only [List.cons_append, List.nil_append, DecodeRune, h1, h2, h3, List.length_cons,
            List.length_nil]
          rw [if_neg (by omega), if_neg (by omega), if_neg (by omega), if_pos (by omega),
            if_pos (by unfold acceptLo acceptHi; split_ifs <;> omega)]
          simp only [Prod.mk.injEq, and_true]
          omega
        · have h1 : (byte (240 + r / 262144)).val = 240 + r / 262144 := byte_val _ (by omega)
          have h2 : (byte (128 + r / 4096 % 64)).val = 128 + r / 4096 % 64 :=
            byte_val _ (by omega)
          have h3 : (byte (128 + r / 64 % 64)).val = 128 + r / 64 % 64 := byte_val _ (by omega)
          have h4 : (byte (128 + r % 64)).val = 128 + r % 64 := byte_val _ (by omega)
          simp only [List.cons_append, List.nil_append, DecodeRune, h1, h2, h3, h4,
            List.length_cons, List.length_nil]
          rw [if_neg (by omega), if_neg (by omega), if_neg (by omega), if_neg (by omega),
            if_pos (by omega), if_pos (by unfold acceptLo acceptHi; split_ifs <;> omega)]
          simp only [Prod.mk.injEq, and_true]
          omega

theorem EncodeRune_two (b0 b1 : Byte) (h0 : 194 ≤ b0.val) (h0' : b0.val < 224)
    (h1 : 128 ≤ b1.val) (h1' : b1.val ≤ 191) :
    EncodeRune (b0.val % 32 * 64 + b1.val % 64) = [b0, b1] := by
  unfold EncodeRune
  rw [if_neg (by omega), if_pos (by omega)]
  rw [byte_eq b0 _ (by omega), byte_eq b1 _ (by omega)]

theorem EncodeRune_three (b0 b1 b2 : Byte) (h0 : 224 ≤ b0.val) (h0' : b0.val < 240)
    (h1 : acceptLo b0.val ≤ b1.val) (h1' : b1.val ≤ acceptHi b0.val)
    (h2 : 128 ≤ b2.val) (h2' : b2.val ≤ 191) :
    EncodeRune (b0.val % 16 * 4096 + b1.val % 64 * 64 + b2.val % 64) = [b0, b1, b2]
      ∧ isScalar (b0.val % 16 * 4096 + b1.val % 64 * 64 + b2.val % 64) := by
  have g1 : 128 ≤ b1.val ∧ (b0.val = 224 → 160 ≤ b1.val) := by
    unfold acceptLo at h1
    split at h1
    · constructor <;> omega
    · split at h1 <;> constructor <;> omega
  have g2 : b1.val ≤ 191 ∧ (b0.val = 237 → b1.val ≤ 159) := by
    unfold acceptHi at h1'
    split at h1'
    · constructor <;> omega
    · split at h1' <;> constructor <;> omega
  clear h1 h1'
  obtain ⟨g1, g1'⟩ := g1
  obtain ⟨g2, g2'⟩ := g2
  have hs : isScalar (b0.val % 16 * 4096 + b1.val % 64 * 64 + b2.val % 64) := by
    unfold isScalar
    omega
  refine ⟨?_, hs⟩
  unfold isScalar at hs
  unfold EncodeRune
  rw [if_neg (by omega), if_neg (by omega), if_neg (by omega), if_pos (by omega)]
  rw [byte_eq b0 _ (by omega), byte_eq b1 _ (by omega), byte_eq b2 _ (by omega)]

theorem EncodeRune_four (b0 b1 b2 b3 : Byte) (h0 : 240 ≤ b0.val) (h0' : b0.val < 245)
    (h1 : acceptLo b0.val ≤ b1.val) (h1' : b1.val ≤ acceptHi b0.val)
    (h2 : 128 ≤ b2.val) (h2' : b2.val ≤ 191) (h3 : 128 ≤ b3.val) (h3' : b3.val ≤ 191) :
    EncodeRune (b0.val % 8 * 262144 + b1.val % 64 * 4096 + b2.val % 64 * 64 + b3.val % 64)
        = [b0, b1, b2, b3]
      ∧ isScalar (b0.val % 8 * 262144 + b1.val % 64 * 4096 + b2.val % 64 * 64 + b3.val % 64) := by
  have g1 : 128 ≤ b1.val ∧ (b0.val = 240 → 144 ≤ b1.val) := by
    unfold acceptLo at h1
    split at h1
    · constructor <;> omega
    · split at h1 <;> constructor <;> omega
  have g2 : b1.val ≤ 191 ∧ (b0.val = 244 → b1.val ≤ 143) := by
    unfold acceptHi at h1'
    split at h1'
    · constructor <;> omega
    · split at h1' <;> constructor <;> omega
  clear h1 h1'
  obtain ⟨g1, g1'⟩ := g1
  obtain ⟨g2, g2'⟩ := g2
  have hs : isScalar
      (b0.val % 8 * 262144 + b1.val % 64 * 4096 + b2.val % 64 * 64 + b3.val % 64) := by
    unfold isScalar
    omega
  refine ⟨?_, hs⟩
  unfold isScalar at hs
  unfold EncodeRune
  rw [if_neg (by omega), if_neg (by omega), if_neg (by omega), if_neg (by omega)]
  rw [byte_eq b0 _ (by omega), byte_eq b1 _ (by omega), byte_eq b2 _ (by omega),
    byte_eq b3 _ (by omega)]

/-- A successful decode returns a scalar value whose encoding is the prefix it
consumed. -/
theorem DecodeRune_valid (s : List Byte) (r n : Nat) (h : DecodeRune s = (r, n))
    (hne : s ≠ []) (hok : ¬ (r = RuneError ∧ n = 1)) :
    isScalar r ∧ s = EncodeRune r ++ s.drop n ∧ (EncodeRune r).length = n := by
  cases s with
  | nil => exact absurd rfl hne
  | cons b0 rest =>
    simp only [DecodeRune] at h
    split at h
    · rename_i h0
      simp only [Prod.mk.injEq] at h
      obtain ⟨rfl, rfl⟩ := h
      refine ⟨Or.inl (by omega), ?_, ?_⟩
      · simp [EncodeRune, h0, byte_eq b0 _ rfl]
      · simp [EncodeRune, h0]
    · split at h
      · simp only [Prod.mk.injEq] at h
        exact absurd ⟨h.1.symm, h.2.symm⟩ hok
      · split at h
        · cases rest with
          | nil =>
            simp only [Prod.mk.injEq] at h
            exact absurd ⟨h.1.symm, h.2.symm⟩ hok
          | cons b1 rest =>
            simp only at h
            split at h
            · rename_i hb
              simp only [Prod.mk.injEq] at h
              obtain ⟨rfl, rfl⟩ := h
              have he := EncodeRune_two b0 b1 (by omega) (by omega) hb.1 hb.2
              refine ⟨Or.inl (by omega), ?_, ?_⟩
              · rw [he]; rfl
              · rw [he]; rfl
            · simp only [Prod.mk.injEq] at h
              exact absurd ⟨h.1.symm, h.2.symm⟩ hok
        · split at h
          · rcases rest with _ | ⟨b1, _ | ⟨b2, rest⟩⟩
            · simp only [Prod.mk.injEq] at h
              exact absurd ⟨h.1.symm, h.2.symm⟩ hok
            · simp only [Prod.mk.injEq] at h
              exact absurd ⟨h.1.symm, h.2.symm⟩ hok
            · simp only at h
              split at h
              · rename_i hb
                simp only [Prod.mk.injEq] at h
                obtain ⟨rfl, rfl⟩ := h
                have he := EncodeRune_three b0 b1 b2 (by omega) (by omega) hb.1 hb.2.1
                  hb.2.2.1 hb.2.2.2
                refine ⟨he.2, ?_, ?_⟩
                · rw [he.1]; rfl
                · rw [he.1]; rfl
              · simp only [Prod.mk.injEq] at h
                exact absurd ⟨h.1.symm, h.2.symm⟩ hok
          · split at h
            · rcases rest with _ | ⟨b1, _ | ⟨b2, _ | ⟨b3, rest⟩⟩⟩
              · simp only [Prod.mk.injEq] at h
                exact absurd ⟨h.1.symm, h.2.symm⟩ hok
              · simp only [Prod.mk.injEq] at h
                exact absurd ⟨h.1.symm, h.2.symm⟩ hok
              · simp only [Prod.mk.injEq] at h
                exact absurd ⟨h.1.symm, h.2.symm⟩ hok
              · simp only at h
                split at h
                · rename_i hb
                  simp only [Prod.mk.injEq] at h
                  obtain ⟨rfl, rfl⟩ := h
                  have he := EncodeRune_four b0 b1 b2 b3 (by omega) (by omega) hb.1 hb.2.1
                    hb.2.2.1 hb.2.2.2.1 hb.2.2.2.2.1 hb.2.2.2.2.2
                  refine ⟨he.2, ?_, ?_⟩
                  · rw [he.1]; rfl
                  · rw [he.1]; rfl
                · simp only [Prod.mk.injEq] at h
                  exact absurd ⟨h.1.symm, h.2.symm⟩ hok
            · simp only [Prod.mk.injEq] at h
              exact absurd ⟨h.1.symm, h.2.symm⟩ hok

/-- The rune decoded at the head of a string, when it is not an error, is a
scalar value whose encoding is the prefix consumed. -/
theorem DecodeRune_spec (s : List Byte) (hne : s ≠ [])
    (hok : ¬ ((DecodeRune s).1 = RuneError ∧ (DecodeRune s).2 = 1)) :
    isScalar (DecodeRune s).1 ∧ s = EncodeRune (DecodeRune s).1 ++ s.drop (DecodeRune s).2
      ∧ (EncodeRune (DecodeRune s).1).length = (DecodeRune s).2 :=
  DecodeRune_valid s (DecodeRune s).1 (DecodeRune s).2 rfl hne hok

end utf8

/-! ## The parser's bound is never reached -/

namespace json

theorem skipSpace_length (s : List Byte) : (skipSpace s).length ≤ s.length := by
  induction s with
  | nil => simp [skipSpace]
  | cons c s ih =>
    rw [skipSpace]
    split
    · simp only [List.length_cons]; omega
    · exact Nat.le_refl _

theorem skipDigits_length (s : List Byte) : (skipDigits s).length ≤ s.length := by
  induction s with
  | nil => simp [skipDigits]
  | cons c s ih =>
    rw [skipDigits]
    split
    · simp only [List.length_cons]; omega
    · exact Nat.le_refl _

theorem digits1_length (s r : List Byte) (h : digits1 s = some r) : r.length < s.length := by
  cases s with
  | nil => simp [digits1] at h
  | cons c s =>
    simp only [digits1] at h
    split at h
    · simp only [Option.some.injEq] at h
      subst h
      have := skipDigits_length s
      simp only [List.length_cons]; omega
    · simp at h

theorem scanExp_length (s r : List Byte) (h : scanExp s = some r) : r.length ≤ s.length := by
  cases s with
  | nil => simp [scanExp] at h; subst h; simp
  | cons c s =>
    simp only [scanExp] at h
    split at h
    · cases s with
      | nil => simp at h
      | cons d s1 =>
        simp only at h
        split at h
        · have := digits1_length _ _ h
          simp only [List.length_cons] at this ⊢; omega
        · have := digits1_length _ _ h
          simp only [List.length_cons] at this ⊢; omega
    · simp only [Option.some.injEq] at h
      subst h
      exact Nat.le_refl _

theorem scanFrac_length (s r : List Byte) (h : scanFrac s = some r) : r.length ≤ s.length := by
  cases s with
  | nil => simp [scanFrac] at h; subst h; simp
  | cons c s =>
    simp only [scanFrac] at h
    split at h
    · split at h
      · rename_i rest hd
        have h1 := digits1_length _ _ hd
        have h2 := scanExp_length _ _ h
        simp only [List.length_cons]; omega
      · simp at h
    · exact scanExp_length _ _ h

theorem scanInt_length (s r : List Byte) (h : scanInt s = some r) : r.length < s.length := by
  cases s with
  | nil => simp [scanInt] at h
  | cons c s =>
    simp only [scanInt] at h
    split at h
    · have := scanFrac_length _ _ h
      simp only [List.length_cons]; omega
    · split at h
      · have h1 := scanFrac_length _ _ h
        have h2 := skipDigits_length s
        simp only [List.length_cons]; omega
      · simp at h

theorem scanNumber_length (s r : List Byte) (h : scanNumber s = some r) : r.length < s.length := by
  cases s with
  | nil => simp [scanNumber] at h
  | cons c s =>
    simp only [scanNumber] at h
    split at h
    · have := scanInt_length _ _ h
      simp only [List.length_cons]; omega
    · exact scanInt_length _ _ h

theorem expect_length (lit s r : List Byte) (h : expect lit s = some r) : r.length ≤ s.length := by
  induction lit generalizing s with
  | nil => simp [expect] at h; subst h; exact Nat.le_refl _
  | cons l lit ih =>
    cases s with
    | nil => simp [expect] at h
    | cons c s =>
      rw [expect] at h
      split at h
      · have := ih _ h
        simp only [List.length_cons]; omega
      · simp at h

theorem consBytes_eq_some (p : List Byte) (x : Option (List Byte × List Byte)) (t r : List Byte)
    (h : consBytes p x = some (t, r)) : ∃ t1, x = some (t1, r) := by
  cases x with
  | none => simp [consBytes] at h
  | some q =>
    obtain ⟨t1, r1⟩ := q
    simp only [consBytes, Option.some.injEq, Prod.mk.injEq] at h
    exact ⟨t1, by rw [h.2]⟩

theorem unquoteFrom_length (s : List Byte) :
    ∀ (k : Nat) (t r : List Byte), unquoteFrom k s = some (t, r) → r.length < s.length := by
  induction s with
  | nil => intro k t r h; cases k <;> simp [unquoteFrom] at h
  | cons c s ih =>
    intro k t r h
    cases k with
    | succ k =>
      rw [unquoteFrom] at h
      have := ih _ _ _ h
      simp only [List.length_cons]; omega
    | zero =>
      rw [unquoteFrom] at h
      split at h
      · simp only [Option.some.injEq, Prod.mk.injEq] at h
        rw [← h.2]; simp
      · split at h
        · split at h
          · obtain ⟨t1, h1⟩ := consBytes_eq_some _ _ _ _ h
            have := ih _ _ _ h1
            simp only [List.length_cons]; omega
          · simp at h
        · split at h
          · simp at h
          · split at h
            · obtain ⟨t1, h1⟩ := consBytes_eq_some _ _ _ _ h
              have := ih _ _ _ h1
              simp only [List.length_cons]; omega
            · obtain ⟨t1, h1⟩ := consBytes_eq_some _ _ _ _ h
              have := ih _ _ _ h1
              simp only [List.length_cons]; omega

theorem parse_length (n : Nat) :
    (∀ d s v r, parseValue n d s = some (v, r) → r.length < s.length) ∧
    (∀ d s ms r, parseMembers n d s = some (ms, r) → r.length < s.length) ∧
    (∀ d s es r, parseElements n d s = some (es, r) → r.length < s.length) := by
  induction n with
  | zero =>
    refine ⟨?_, ?_, ?_⟩ <;> intro d s v r h
    · simp [parseValue] at h
    · simp [parseMembers] at h
    · simp [parseElements] at h
  | succ n ih =>
    obtain ⟨ihv, ihm, ihe⟩ := ih
    refine ⟨?_, ?_, ?_⟩
    · intro d s v r h
      cases s with
      | nil => simp [parseValue] at h
      | cons c rest =>
        simp only [parseValue] at h
        split at h
        · split at h
          · simp at h
          · split at h
            · simp at h
            · rename_i d1 rest1 hsp
              have hl := skipSpace_length rest
              rw [hsp] at hl
              simp only [List.length_cons] at hl ⊢
              split at h
              · simp only [Option.some.injEq, Prod.mk.injEq] at h
                rw [← h.2]; omega
              · split at h
                · rename_i ms rest2 hm
                  have := ihm _ _ _ _ hm
                  simp only [Option.some.injEq, Prod.mk.injEq, List.length_cons] at h this
                  rw [← h.2]; omega
                · simp at h
        · split at h
          · split at h
            · simp at h
            · split at h
              · simp at h
              · rename_i d1 rest1 hsp
                have hl := skipSpace_length rest
                rw [hsp] at hl
                simp only [List.length_cons] at hl ⊢
                split at h
                · simp only [Option.some.injEq, Prod.mk.injEq] at h
                  rw [← h.2]; omega
                · split at h
                  · simp at h
                  · rename_i w rest2 hv
                    have h1 := ihv _ _ _ _ hv
                    simp only [List.length_cons] at h1
                    split at h
                    · rename_i es rest3 hm
                      have := ihe _ _ _ _ hm
                      simp only [Option.some.injEq, Prod.mk.injEq] at h
                      rw [← h.2]; omega
                    · simp at h
          · split at h
            · split at h
              · rename_i t rest1 hu
                have := unquoteFrom_length _ _ _ _ hu
                simp only [Option.some.injEq, Prod.mk.injEq, List.length_cons] at h ⊢
                rw [← h.2]; omega
              · simp at h
            · have hmap : ∀ (o : Option (List Byte)) (w : JValue) (l : Nat),
                  (∀ r1, o = some r1 → r1.length ≤ l) →
                  o.map (fun r1 => (w, r1)) = some (v, r) → r.length ≤ l := by
                intro o w l ho hv
                cases o with
                | none => simp at hv
                | some r1 =>
                  simp only [Option.map_some', Option.some.injEq, Prod.mk.injEq] at hv
                  rw [← hv.2]; exact ho r1 rfl
              simp only [List.length_cons]
              split at h
              · have := hmap _ _ rest.length (fun r1 h1 => expect_length _ _ _ h1) h
                omega
              · split at h
                · have := hmap _ _ rest.length (fun r1 h1 => expect_length _ _ _ h1) h
                  omega
                · split at h
                  · have := hmap _ _ rest.length (fun r1 h1 => expect_length _ _ _ h1) h
                    omega
                  · have := hmap _ _ rest.length (fun r1 h1 => by
                      have := scanNumber_length _ _ h1
                      simp only [List.length_cons] at this; omega) h
                    omega
    · intro d s ms r h
      cases s with
      | nil => simp [parseMembers] at h
      | cons c rest =>
        simp only [parseMembers] at h
        split at h
        · split at h
          · simp at h
          · rename_i key rest1 hu
            have h1 := unquoteFrom_length _ _ _ _ hu
            split at h
            · simp at h
            · rename_i d1 rest2 hsp
              have h2 := skipSpace_length rest1
              rw [hsp] at h2
              split at h
              · split at h
                · simp at h
                · rename_i w rest3 hv
                  have h3 := ihv _ _ _ _ hv
                  have h4 := skipSpace_length rest2
                  split at h
                  · simp at h
                  · rename_i e rest4 hsp2
                    have h5 := skipSpace_length rest3
                    rw [hsp2] at h5
                    simp only [List.length_cons] at h2 h5 ⊢
                    split at h
                    · split at h
                      · rename_i ms1 rest5 hm
                        have h6 := ihm _ _ _ _ hm
                        have h7 := skipSpace_length rest4
                        simp only [Option.some.injEq, Prod.mk.injEq] at h
                        rw [← h.2]; omega
                      · simp at h
                    · split at h
                      · simp only [Option.some.injEq, Prod.mk.injEq] at h
                        rw [← h.2]; omega
                      · simp at h
              · simp at h
        · simp at h
    · intro d s es r h
      simp only [parseElements] at h
      split at h
      · simp at h
      · rename_i e rest1 hsp
        have h2 := skipSpace_length s
        rw [hsp] at h2
        simp only [List.length_cons] at h2
        split at h
        · split at h
          · simp at h
          · rename_i w rest2 hv
            have h3 := ihv _ _ _ _ hv
            have h4 := skipSpace_length rest1
            split at h
            · rename_i es1 rest3 hm
              have h5 := ihe _ _ _ _ hm
              simp only [Option.some.injEq, Prod.mk.injEq] at h
              rw [← h.2]; omega
            · simp at h
        · split at h
          · simp only [Option.some.injEq, Prod.mk.injEq] at h
            rw [← h.2]; omega
          · simp at h

theorem parse_fuel (n : Nat) : ∀ m : Nat,
    (∀ d s, s.length < n → s.length < m → parseValue n d s = parseValue m d s) ∧
    (∀ d s, s.length < n → s.length < m → parseMembers n d s = parseMembers m d s) ∧
    (∀ d s, s.length < n → s.length < m → parseElements n d s = parseElements m d s) := by
  induction n with
  | zero =>
    intro m
    refine ⟨?_, ?_, ?_⟩ <;> intro d s h <;> omega
  | succ n ih =>
    intro m
    cases m with
    | zero => refine ⟨?_, ?_, ?_⟩ <;> intro d s _ h <;> omega
    | succ m =>
      obtain ⟨ihv, ihm, ihe⟩ := ih m
      refine ⟨?_, ?_, ?_⟩
      · intro d s hn hm
        cases s with
        | nil => simp [parseValue]
        | cons c rest =>
          simp only [List.length_cons] at hn hm
          simp only [parseValue]
          split
          · split
            · rfl
            · split
              · rfl
              · rename_i d1 rest1 hsp
                have hl := skipSpace_length rest
                rw [hsp] at hl
                simp only [List.length_cons] at hl
                rw [ihm _ (d1 :: rest1) (by simp only [List.length_cons]; omega)
                  (by simp only [List.length_cons]; omega)]
          · split
            · split
              · rfl
              · split
                · rfl
                · rename_i d1 rest1 hsp
                  have hl := skipSpace_length rest
                  rw [hsp] at hl
                  simp only [List.length_cons] at hl
                  split
                  · rfl
                  · rw [ihv _ (d1 :: rest1) (by simp only [List.length_cons]; omega)
                      (by simp only [List.length_cons]; omega)]
                    split
                    · rfl
                    · rename_i w rest2 hv
                      have h1 := (parse_length m).1 _ _ _ _ hv
                      simp only [List.length_cons] at h1
                      rw [ihe _ rest2 (by omega) (by omega)]
            · rfl
      · intro d s hn hm
        cases s with
        | nil => simp [parseMembers]
        | cons c rest =>
          simp only [List.length_cons] at hn hm
          simp only [parseMembers]
          split
          · split
            · rfl
            · rename_i key rest1 hu
              have h1 := unquoteFrom_length _ _ _ _ hu
              split
              · rfl
              · rename_i d1 rest2 hsp
                have h2 := skipSpace_length rest1
                rw [hsp] at h2
                simp only [List.length_cons] at h2
                have h3 := skipSpace_length rest2
                split
                · rw [ihv _ (skipSpace rest2) (by omega) (by omega)]
                  split
                  · rfl
                  · rename_i w rest3 hv
                    have h4 := (parse_length m).1 _ _ _ _ hv
                    split
                    · rfl
                    · rename_i e rest4 hsp2
                      have h5 := skipSpace_length rest3
                      rw [hsp2] at h5
                      simp only [List.length_cons] at h5
                      have h6 := skipSpace_length rest4
                      split
                      · rw [ihm _ (skipSpace rest4) (by omega) (by omega)]
                      · rfl
                · rfl
          · rfl
      · intro d s hn hm
        simp only [parseElements]
        split
        · rfl
        · rename_i e rest1 hsp
          have h2 := skipSpace_length s
          rw [hsp] at h2
          simp only [List.length_cons] at h2
          have h3 := skipSpace_length rest1
          split
          · rw [ihv _ (skipSpace rest1) (by omega) (by omega)]
            split
            · rfl
            · rename_i w rest2 hv
              have h4 := (parse_length m).1 _ _ _ _ hv
              rw [ihe _ rest2 (by omega) (by omega)]
          · rfl

/-- Any bound above the input length gives the parse of `parse`. -/
theorem parseValue_fuel (d : Nat) (s : List Byte) (n : Nat) (h : s.length < n) :
    parseValue n d s = parseValue (s.length + 1) d s :=
  (parse_fuel n (s.length + 1)).1 d s h (Nat.lt_succ_self _)

/-- The result of `parse` does not depend on the bound, as long as it exceeds the
input length: the bound never cuts a parse short. -/
theorem parse_eq_of_bound (data : List Byte) (n : Nat) (h : data.length < n) :
    parse data =
      match parseValue n 0 (skipSpace data) with
      | some (v, rest) =>
        match skipSpace rest with
        | [] => some v
        | _ :: _ => none
      | none => none := by
  have hl := skipSpace_length data
  rw [parse, (parse_fuel n (data.length + 1)).1 0 (skipSpace data) (by omega) (by omega)]

end json

/-! ## Round trip of the codec -/

namespace utf8

theorem DecodeRune_size (b : Byte) (rest : List Byte) :
    1 ≤ (DecodeRune (b :: rest)).2 := by
  simp only [DecodeRune]
  split_ifs <;> (try split) <;> (try split_ifs) <;> simp

theorem DecodeRune_ascii (b : Byte) (rest : List Byte) (h : b.val < 128) :
    DecodeRune (b :: rest) = (b.val, 1) := by
  simp [DecodeRune, h]

theorem EncodeRune_ascii (b : Byte) (h : b.val < 128) : EncodeRune b.val = [b] := by
  simp [EncodeRune, h, byte_eq b _ rfl]

/-- The encoder writes every rune as the encoding of a scalar value. -/
theorem EncodeRune_eq_scalar (r : Nat) : ∃ q, isScalar q ∧ EncodeRune r = EncodeRune q := by
  by_cases h : isScalar r
  · exact ⟨r, h, rfl⟩
  · refine ⟨RuneError, Or.inr (by decide), ?_⟩
    unfold isScalar at h
    unfold EncodeRune
    rw [if_neg (by omega), if_neg (by omega), if_pos (by omega)]
    rfl

theorem EncodeRune_cons (r : Nat) :
    ∃ b E, EncodeRune r = b :: E ∧ (128 ≤ r → 128 ≤ b.val) ∧ (E = [] → r < 128) := by
  unfold EncodeRune
  split
  · exact ⟨_, _, rfl, fun h => by omega, fun _ => by omega⟩
  · split
    · refine ⟨_, _, rfl, fun _ => ?_, fun h => by simp at h⟩
      rw [byte_val _ (by omega)]; omega
    · split
      · exact ⟨_, _, rfl, fun _ => by decide, fun h => by simp at h⟩
      · split
        · refine ⟨_, _, rfl, fun _ => ?_, fun h => by simp at h⟩
          rw [byte_val _ (by omega)]; omega
        · rename_i h1 h2 h3 h4
          refine ⟨_, _, rfl, fun _ => ?_, fun h => by simp at h⟩
          rw [byte_val _ (by omega)]; omega

theorem validFrom_drop (k : Nat) (s : List Byte) : validFrom k s = validFrom 0 (s.drop k) := by
  induction k generalizing s with
  | zero => rfl
  | succ k ih =>
    cases s with
    | nil => simp [validFrom]
    | cons a s => rw [validFrom, ih]; rfl

theorem validFrom_EncodeRune (r : Nat) (tail : List Byte) :
    validFrom 0 (EncodeRune r ++ tail) = validFrom 0 tail := by
  obtain ⟨q, hq, he⟩ := EncodeRune_eq_scalar r
  rw [he]
  have hd := DecodeRune_EncodeRune q tail hq
  obtain ⟨b, E, hE, -, h1⟩ := EncodeRune_cons q
  rw [hE] at hd ⊢
  simp only [List.cons_append] at hd ⊢
  rw [validFrom, hd]
  simp only [List.length_cons, Nat.add_sub_cancel]
  rw [if_neg, validFrom_drop]
  · simp
  · rintro ⟨h2, h3⟩
    have : E = [] := by
      cases E with
      | nil => rfl
      | cons a E => simp at h3
    have := h1 this
    rw [h2] at this
    exact absurd this (by decide)

end utf8

namespace json

theorem consBytes_some (p s rest : List Byte) :
    consBytes p (some (s, rest)) = some (p ++ s, rest) := rfl

theorem consBytes_eq_some_append (p : List Byte) (x : Option (List Byte × List Byte))
    (t r : List Byte) (h : consBytes p x = some (t, r)) :
    ∃ t1, x = some (t1, r) ∧ t = p ++ t1 := by
  cases x with
  | none => simp [consBytes] at h
  | some q =>
    obtain ⟨t1, r1⟩ := q
    simp only [consBytes, Option.some.injEq, Prod.mk.injEq] at h
    exact ⟨t1, by rw [h.2], h.1.symm⟩

theorem unquoteFrom_skip (l tail : List Byte) :
    unquoteFrom l.length (l ++ tail) = unquoteFrom 0 tail := by
  induction l with
  | nil => rfl
  | cons a l ih => simpa [unquoteFrom] using ih

theorem appendStringFrom_drop (k : Nat) (s : List Byte) :
    appendStringFrom k s = appendStringFrom 0 (s.drop k) := by
  induction k generalizing s with
  | zero => rfl
  | succ k ih =>
    cases s with
    | nil => simp [appendStringFrom]
    | cons a s => rw [appendStringFrom, ih]; rfl

theorem coerceFrom_drop (k : Nat) (s : List Byte) :
    coerceFrom k s = coerceFrom 0 (s.drop k) := by
  induction k generalizing s with
  | zero => rfl
  | succ k ih =>
    cases s with
    | nil => simp [coerceFrom]
    | cons a s => rw [coerceFrom, ih]; rfl

theorem unquoteFrom_plain (c : Byte) (tail : List Byte) (h1 : c.val ≠ 34) (h2 : c.val ≠ 92)
    (h3 : 32 ≤ c.val) (h4 : c.val < 128) :
    unquoteFrom 0 (c :: tail) = consBytes [c] (unquoteFrom 0 tail) := by
  rw [unquoteFrom]
  rw [if_neg h1, if_neg h2, if_neg (by omega), if_pos h4]

theorem unquoteFrom_simple (a e : Byte) (ch : Nat) (tail : List Byte) (h0 : a.val = 92)
    (h1 : e.val ≠ 117) (h2 : simpleEscape e = some ch) :
    unquoteFrom 0 (a :: e :: tail) = consBytes (utf8.EncodeRune ch) (unquoteFrom 0 tail) := by
  rw [unquoteFrom]
  simp [decodeEscape, h0, h1, h2, unquoteFrom]

theorem unquoteFrom_u (a u x1 x2 x3 x4 : Byte) (n : Nat) (tail : List Byte) (h0 : a.val = 92)
    (hu : u.val = 117) (h1 : hex4 x1 x2 x3 x4 = some n) (h2 : isSurrogate n = false) :
    unquoteFrom 0 (a :: u :: x1 :: x2 :: x3 :: x4 :: tail)
      = consBytes (utf8.EncodeRune n) (unquoteFrom 0 tail) := by
  rw [unquoteFrom]
  simp [decodeEscape, h0, hu, h1, h2, unquoteFrom]

theorem unquoteFrom_of_escapeOK (r : Nat) (l tail : List Byte) (h : escapeOK r l = true) :
    unquoteFrom 0 (l ++ tail) = consBytes (utf8.EncodeRune r) (unquoteFrom 0 tail) := by
  rcases l with _ | ⟨a, _ | ⟨b, _ | ⟨x1, _ | ⟨x2, _ | ⟨x3, _ | ⟨x4, _ | ⟨x5, l⟩⟩⟩⟩⟩⟩⟩ <;>
    simp [escapeOK] at h
  · obtain ⟨⟨⟨⟨rfl, h1⟩, h2⟩, h3⟩, h4⟩ := h
    rw [utf8.EncodeRune_ascii a h4]
    exact unquoteFrom_plain _ _ h1 h2 h3 h4
  · obtain ⟨⟨h0, h1⟩, h2⟩ := h
    exact unquoteFrom_simple _ _ _ _ h0 h1 h2
  · obtain ⟨⟨⟨h0, hu⟩, h1⟩, h2⟩ := h
    have := unquoteFrom_u a b x1 x2 x3 x4 _ tail h0 hu h1 h2
    simpa using this

set_option maxRecDepth 100000 in
theorem escapeOK_ascii :
    ∀ n, n < 128 → escapeOK n (appendStringASCII (byte n)) = true := by
  decide

theorem take_eq_of_append (s E D : List Byte) (n : Nat) (h : s = E ++ D) (hn : E.length = n) :
    s.take n = E := by
  subst h; subst hn; simp

theorem unquoteFrom_rune (r : Nat) (hs : isScalar r) (h128 : 128 ≤ r) (tail : List Byte) :
    unquoteFrom 0 (utf8.EncodeRune r ++ tail)
      = consBytes (utf8.EncodeRune r) (unquoteFrom 0 tail) := by
  have hd := utf8.DecodeRune_EncodeRune r tail hs
  obtain ⟨b, E, hE, hb, -⟩ := utf8.EncodeRune_cons r
  have hb := hb h128
  rw [hE] at hd
  simp only [List.cons_append] at hd
  conv => lhs; rw [hE]
  simp only [List.cons_append]
  rw [unquoteFrom, if_neg (by omega), if_neg (by omega), if_neg (by omega), if_neg (by omega),
    hd]
  simp only [List.length_cons, Nat.add_sub_cancel]
  rw [unquoteFrom_skip]

/-- One step of the encoder loop, of the coercion and of the decoder loop side by
side: the text written for the rune at the head of the input is read back as the
encoding of that rune. -/
theorem appendStringFrom_step (b : Byte) (rest : List Byte) :
    ∃ (P : List Byte) (r : Nat),
      appendStringFrom 0 (b :: rest)
        = P ++ appendStringFrom 0 (rest.drop ((utf8.DecodeRune (b :: rest)).2 - 1)) ∧
      coerceFrom 0 (b :: rest)
        = utf8.EncodeRune r ++ coerceFrom 0 (rest.drop ((utf8.DecodeRune (b :: rest)).2 - 1)) ∧
      ∀ tail, unquoteFrom 0 (P ++ tail) = consBytes (utf8.EncodeRune r) (unquoteFrom 0 tail) := by
  by_cases h : b.val < 128
  · refine ⟨appendStringASCII b, b.val, ?_, ?_, ?_⟩
    · rw [appendStringFrom, if_pos h, utf8.DecodeRune_ascii b rest h]; rfl
    · rw [coerceFrom, utf8.DecodeRune_ascii b rest h, coerceFrom_drop]
    · intro tail
      have := escapeOK_ascii b.val h
      rw [utf8.byte_eq b _ rfl] at this
      exact unquoteFrom_of_escapeOK _ _ _ this
  · by_cases hinv : (utf8.DecodeRune (b :: rest)).1 = utf8.RuneError
        ∧ (utf8.DecodeRune (b :: rest)).2 = 1
    · refine ⟨[92, 117, 102, 102, 102, 100], utf8.RuneError, ?_, ?_, ?_⟩
      · rw [appendStringFrom, if_neg h, if_pos hinv, hinv.2]; rfl
      · rw [coerceFrom, hinv.1, hinv.2]; rfl
      · intro tail
        exact unquoteFrom_of_escapeOK _ _ _ (by decide)
    · have hv := utf8.DecodeRune_spec (b :: rest) (by simp) hinv
      obtain ⟨hs, hsplit, hlen⟩ := hv
      have hpos := utf8.DecodeRune_size b rest
      have hdrop : (b :: rest).drop (utf8.DecodeRune (b :: rest)).2
          = rest.drop ((utf8.DecodeRune (b :: rest)).2 - 1) := by
        obtain ⟨m, hm⟩ : ∃ m, (utf8.DecodeRune (b :: rest)).2 = m + 1 :=
          ⟨(utf8.DecodeRune (b :: rest)).2 - 1, by omega⟩
        rw [hm]; rfl
      have h128 : 128 ≤ (utf8.DecodeRune (b :: rest)).1 := by
        by_contra hlt
        have hlt : (utf8.DecodeRune (b :: rest)).1 < 128 := by omega
        have he : utf8.EncodeRune (utf8.DecodeRune (b :: rest)).1
            = [byte (utf8.DecodeRune (b :: rest)).1] := by
          simp [utf8.EncodeRune, hlt]
        rw [he] at hsplit
        simp only [List.cons_append, List.nil_append, List.cons.injEq] at hsplit
        have := congrArg Fin.val hsplit.1
        rw [utf8.byte_val _ (by omega)] at this
        omega
      by_cases hsep : (utf8.DecodeRune (b :: rest)).1 = 8232
          ∨ (utf8.DecodeRune (b :: rest)).1 = 8233
      · refine ⟨[92, 117, 50, 48, 50, hex ((utf8.DecodeRune (b :: rest)).1 % 16)],
          (utf8.DecodeRune (b :: rest)).1, ?_, ?_, ?_⟩
        · rw [appendStringFrom, if_neg h, if_neg hinv, if_pos hsep, appendStringFrom_drop]
        · rw [coerceFrom, coerceFrom_drop]
        · intro tail
          refine unquoteFrom_of_escapeOK _ _ _ ?_
          rcases hsep with h1 | h1 <;> rw [h1] <;> decide
      · refine ⟨(b :: rest).take (utf8.DecodeRune (b :: rest)).2,
          (utf8.DecodeRune (b :: rest)).1, ?_, ?_, ?_⟩
        · rw [appendStringFrom, if_neg h, if_neg hinv, if_neg hsep, appendStringFrom_drop]
        · rw [coerceFrom, coerceFrom_drop]
        · intro tail
          have htake : (b :: rest).take (utf8.DecodeRune (b :: rest)).2
              = utf8.EncodeRune (utf8.DecodeRune (b :: rest)).1 := by
            exact take_eq_of_append _ _ _ _ hsplit hlen
          rw [htake]
          exact unquoteFrom_rune _ hs h128 tail

theorem DecodeRune_drop_length (b : Byte) (rest : List Byte) :
    (rest.drop ((utf8.DecodeRune (b :: rest)).2 - 1)).length < (b :: rest).length := by
  simp only [List.length_drop, List.length_cons]
  omega

/-- Reading back what `appendString` wrote gives the string coerced to valid
UTF-8. -/
theorem unquoteFrom_appendStringFrom (s tail : List Byte) :
    unquoteFrom 0 (appendStringFrom 0 s ++ 34 :: tail) = some (coerceFrom 0 s, tail) := by
  obtain ⟨n, h⟩ : ∃ n, s.length = n := ⟨_, rfl⟩
  induction n using Nat.strong_induction_on generalizing s with
  | _ n ih =>
    cases s with
    | nil =>
      simp only [appendStringFrom, coerceFrom, List.nil_append]
      rw [unquoteFrom, if_pos (by decide)]
    | cons b rest =>
      obtain ⟨P, r, h1, h2, h3⟩ := appendStringFrom_step b rest
      rw [h1, h2, List.append_assoc, h3,
        ih _ (by rw [← h]; exact DecodeRune_drop_length b rest) _ rfl, consBytes_some]

theorem valid_coerceFrom (s : List Byte) : utf8.validFrom 0 (coerceFrom 0 s) = true := by
  obtain ⟨n, h⟩ : ∃ n, s.length = n := ⟨_, rfl⟩
  induction n using Nat.strong_induction_on generalizing s with
  | _ n ih =>
    cases s with
    | nil => simp [coerceFrom, utf8.validFrom]
    | cons b rest =>
      rw [coerceFrom, coerceFrom_drop, utf8.validFrom_EncodeRune]
      exact ih _ (by rw [← h]; exact DecodeRune_drop_length b rest) _ rfl

theorem coerceFrom_of_valid (s : List Byte) (hv : utf8.validFrom 0 s = true) :
    coerceFrom 0 s = s := by
  obtain ⟨n, h⟩ : ∃ n, s.length = n := ⟨_, rfl⟩
  induction n using Nat.strong_induction_on generalizing s with
  | _ n ih =>
    cases s with
    | nil => simp [coerceFrom]
    | cons b rest =>
      rw [utf8.validFrom] at hv
      split at hv
      · simp at hv
      · rename_i hinv
        rw [utf8.validFrom_drop] at hv
        obtain ⟨-, hsplit, hlen⟩ := utf8.DecodeRune_spec (b :: rest) (by simp) hinv
        have hpos := utf8.DecodeRune_size b rest
        have hdrop : (b :: rest).drop (utf8.DecodeRune (b :: rest)).2
            = rest.drop ((utf8.DecodeRune (b :: rest)).2 - 1) := by
          obtain ⟨m, hm⟩ : ∃ m, (utf8.DecodeRune (b :: rest)).2 = m + 1 :=
            ⟨(utf8.DecodeRune (b :: rest)).2 - 1, by omega⟩
          rw [hm]; rfl
        rw [coerceFrom, coerceFrom_drop,
          ih _ (by rw [← h]; exact DecodeRune_drop_length b rest) _ hv rfl, ← hdrop]
        exact hsplit.symm

/-- A string that is valid UTF-8 is not changed by the coercion. -/
theorem coerceUTF8_of_valid (s : GoString) (hv : utf8.Valid s = true) : coerceUTF8 s = s :=
  coerceFrom_of_valid s hv

/-- The coerced string is valid UTF-8. -/
theorem valid_coerceUTF8 (s : GoString) : utf8.Valid (coerceUTF8 s) = true :=
  valid_coerceFrom s

/-- What the decoder reads from a string literal is valid UTF-8. -/
theorem unquoteFrom_valid (s : List Byte) :
    ∀ (k : Nat) (t r : List Byte), unquoteFrom k s = some (t, r) → utf8.Valid t = true := by
  induction s with
  | nil => intro k t r h; cases k <;> simp [unquoteFrom] at h
  | cons c s ih =>
    intro k t r h
    cases k with
    | succ k =>
      rw [unquoteFrom] at h
      exact ih _ _ _ h
    | zero =>
      rw [unquoteFrom] at h
      split at h
      · simp only [Option.some.injEq, Prod.mk.injEq] at h
        rw [← h.1]; rfl
      · split at h
        · split at h
          · obtain ⟨t1, h1, rfl⟩ := consBytes_eq_some_append _ _ _ _ h
            unfold utf8.Valid
            rw [utf8.validFrom_EncodeRune]
            exact ih _ _ _ h1
          · simp at h
        · split at h
          · simp at h
          · split at h
            · rename_i h128
              obtain ⟨t1, h1, rfl⟩ := consBytes_eq_some_append _ _ _ _ h
              unfold utf8.Valid
              rw [← utf8.EncodeRune_ascii c h128, utf8.validFrom_EncodeRune]
              exact ih _ _ _ h1
            · obtain ⟨t1, h1, rfl⟩ := consBytes_eq_some_append _ _ _ _ h
              unfold utf8.Valid
              rw [utf8.validFrom_EncodeRune]
              exact ih _ _ _ h1

theorem skipSpace_quote (s : List Byte) : skipSpace (34 :: s) = 34 :: s := by
  rw [skipSpace, if_neg (by decide)]

theorem appendString_append (s tail : List Byte) :
    appendString s ++ tail = 34 :: (appendStringFrom 0 s ++ 34 :: tail) := by
  simp [appendString]

theorem parseValue_quoted (fuel depth : Nat) (s tail : List Byte) :
    parseValue (fuel + 1) depth (34 :: (appendStringFrom 0 s ++ 34 :: tail))
      = some (JValue.string (coerceUTF8 s), tail) := by
  rw [parseValue, if_neg (by decide), if_neg (by decide), if_pos (by decide)]
  simp [unquote, unquoteFrom_appendStringFrom, coerceUTF8]

theorem coerceUTF8_tag (f : Field) : coerceUTF8 f.tag = f.tag := by
  cases f <;> rfl

theorem parseMembers_encode (v : Invoice) (fs : List Field) :
    ∀ (f : Field) (fuel depth : Nat) (tail : List Byte), fs.length + 2 ≤ fuel →
      parseMembers fuel depth
          (appendString f.tag ++ 58 :: (appendString (v.get f) ++ (encodeRest v fs ++ tail)))
        = some (membersOf v (f :: fs), tail) := by
  induction fs with
  | nil =>
    intro f fuel depth tail hfuel
    obtain ⟨k, rfl⟩ : ∃ k, fuel = k + 2 := ⟨fuel - 2, by simp at hfuel; omega⟩
    rw [appendString_append, parseMembers, if_pos (by decide)]
    simp only [unquote, unquoteFrom_appendStringFrom]
    rw [skipSpace, if_neg (by decide)]
    simp only []
    rw [if_pos (by decide), appendString_append, skipSpace_quote, parseValue_quoted]
    simp only [encodeRest, List.cons_append, List.nil_append]
    rw [skipSpace, if_neg (by decide)]
    simp only []
    rw [if_neg (by decide), if_pos (by decide)]
    have ht : coerceFrom 0 f.tag = f.tag := coerceUTF8_tag f
    rw [ht]
    rfl
  | cons g fs ih =>
    intro f fuel depth tail hfuel
    obtain ⟨k, rfl⟩ : ∃ k, fuel = k + 1 := ⟨fuel - 1, by simp at hfuel; omega⟩
    have hk : fs.length + 2 ≤ k := by simp at hfuel; omega
    obtain ⟨j, rfl⟩ : ∃ j, k = j + 1 := ⟨k - 1, by omega⟩
    have := ih g (j + 1) depth tail hk
    rw [appendString_append, parseMembers, if_pos (by decide)]
    simp only [unquote, unquoteFrom_appendStringFrom]
    rw [skipSpace, if_neg (by decide)]
    simp only []
    rw [if_pos (by decide), appendString_append, skipSpace_quote, parseValue_quoted]
    simp only [encodeRest, List.cons_append]
    rw [skipSpace, if_neg (by decide)]
    simp only []
    rw [if_pos (by decide), appendString_append]
    rw [appendString_append] at this
    simp only [List.append_assoc, List.cons_append] at this ⊢
    rw [skipSpace_quote, this]
    have ht : coerceFrom 0 f.tag = f.tag := coerceUTF8_tag f
    rw [ht]
    rfl

theorem encodeStruct_length (v : Invoice) : 12 ≤ (encodeStruct v Field.all).length := by
  simp [encodeStruct, encodeRest, Field.all, appendString]
  omega

theorem parse_encodeStruct (v : Invoice) :
    parse (encodeStruct v Field.all) = some (JValue.object (membersOf v Field.all)) := by
  have hlen := encodeStruct_length v
  obtain ⟨k, hk⟩ : ∃ k, (encodeStruct v Field.all).length = k + 12 :=
    ⟨(encodeStruct v Field.all).length - 12, by omega⟩
  have hm := parseMembers_encode v Field.all.tail Field.InvoiceNumber (k + 12) 1 [] (by
    simp [Field.all])
  rw [parse, hk]
  simp only [encodeStruct, Field.all, List.tail] at hm ⊢
  rw [appendString_append] at hm
  simp only [List.append_nil] at hm
  rw [appendString_append]
  rw [skipSpace, if_neg (by decide), parseValue, if_pos (by decide), if_neg (by decide),
    skipSpace_quote]
  simp only []
  rw [if_neg (by decide)]
  simp only [Nat.zero_add, hm]
  simp [skipSpace]

theorem findField_tag (f : Field) : findField f.tag = some f := by
  cases f <;> decide

/-- Decoding what the encoder wrote gives the record with every field coerced to
valid UTF-8, and no error. -/
theorem Unmarshal_Marshal (v v0 : Invoice) : Unmarshal (Marshal v) v0 = (v.coerce, none) := by
  simp only [Unmarshal, Marshal, parse_encodeStruct]
  simp [membersOf, Field.all, decodeMember, findField_tag, Invoice.set, Invoice.get,
    Invoice.coerce]

end json

/-! ## Records of valid UTF-8 and what the decoder returns -/

theorem Field.mem_all (f : Field) : f ∈ Field.all := by
  cases f <;> simp [Field.all]

theorem Invoice.valid_iff (v : Invoice) :
    v.valid = true ↔ ∀ f : Field, utf8.Valid (v.get f) = true := by
  rw [Invoice.valid, List.all_eq_true]
  exact ⟨fun h f => h f (Field.mem_all f), fun h f _ => h f⟩

/-- A record whose fields are valid UTF-8 is not changed by the coercion. -/
theorem Invoice.coerce_of_valid (v : Invoice) (h : v.valid = true) : v.coerce = v := by
  rw [Invoice.valid_iff] at h
  have h1 := h Field.InvoiceNumber
  have h2 := h Field.BilledTo
  have h3 := h Field.InvoiceDate
  have h4 := h Field.InvoiceAmount
  have h5 := h Field.ItemDescription
  have h6 := h Field.GR
  have h7 := h Field.IsPaid
  have h8 := h Field.PaidAmount
  have h9 := h Field.Repaid
  have h10 := h Field.RepaymentAmount
  simp only [Invoice.get] at h1 h2 h3 h4 h5 h6 h7 h8 h9 h10
  simp [Invoice.coerce, json.coerceUTF8_of_valid, h1, h2, h3, h4, h5, h6, h7, h8, h9, h10]

theorem Invoice.valid_coerce (v : Invoice) : v.coerce.valid = true := by
  rw [Invoice.valid_iff]
  intro f
  cases f <;> exact json.valid_coerceUTF8 _

theorem Invoice.coerce_coerce (v : Invoice) : v.coerce.coerce = v.coerce :=
  Invoice.coerce_of_valid _ (Invoice.valid_coerce v)

theorem Invoice.valid_zero : Invoice.zero.valid = true := rfl

theorem Invoice.valid_set (v : Invoice) (f : Field) (s : GoString) (hv : v.valid = true)
    (hs : utf8.Valid s = true) : (v.set f s).valid = true := by
  rw [Invoice.valid_iff] at hv ⊢
  intro g
  have := hv g
  cases f <;> cases g <;> first | exact hs | exact this

/-- Setting the field again after a round trip through the coercion gives the
record back, when its fields were valid UTF-8. -/
theorem Invoice.set_coerce_set (r : Invoice) (v : GoString) (hr : r.valid = true) :
    ((r.set Field.GR v).coerce).set Field.GR v = r.set Field.GR v := by
  have hc := Invoice.coerce_of_valid r hr
  cases r
  simp only [Invoice.coerce, Invoice.mk.injEq] at hc
  obtain ⟨h1, h2, h3, h4, h5, h6, h7, h8, h9, h10⟩ := hc
  simp [Invoice.set, Invoice.coerce, h1, h2, h3, h4, h5, h7, h8, h9, h10]

namespace json

/-- A string value the parser returns is valid UTF-8. -/
theorem parseValue_string_valid (fuel depth : Nat) (s r t : List Byte)
    (h : parseValue fuel depth s = some (JValue.string t, r)) : utf8.Valid t = true := by
  cases fuel with
  | zero => simp [parseValue] at h
  | succ fuel =>
    cases s with
    | nil => simp [parseValue] at h
    | cons c rest =>
      simp only [parseValue] at h
      split at h
      · split at h
        · simp at h
        · split at h
          · simp at h
          · split at h
            · simp at h
            · split at h <;> simp at h
      · split at h
        · split at h
          · simp at h
          · split at h
            · simp at h
            · split at h
              · simp at h
              · split at h
                · simp at h
                · split at h <;> simp at h
        · split at h
          · split at h
            · rename_i t1 rest1 hu
              simp only [Option.some.injEq, Prod.mk.injEq, JValue.string.injEq] at h
              rw [← h.1]
              exact unquoteFrom_valid _ _ _ _ hu
            · simp at h
          · split at h
            · cases hx : expect [114, 117, 101] rest <;> rw [hx] at h <;> simp at h
            · split at h
              · cases hx : expect [97, 108, 115, 101] rest <;> rw [hx] at h <;> simp at h
              · split at h
                · cases hx : expect [117, 108, 108] rest <;> rw [hx] at h <;> simp at h
                · cases hx : scanNumber (c :: rest) <;> rw [hx] at h <;> simp at h

/-- Every string value among the members the parser returns is valid UTF-8. -/
theorem parseMembers_valid (fuel : Nat) :
    ∀ (depth : Nat) (s r : List Byte) (ms : List (List Byte × JValue)),
      parseMembers fuel depth s = some (ms, r) →
      ∀ m ∈ ms, ∀ t, m.2 = JValue.string t → utf8.Valid t = true := by
  induction fuel with
  | zero => intro depth s r ms h; simp [parseMembers] at h
  | succ fuel ih =>
    intro depth s r ms h
    cases s with
    | nil => simp [parseMembers] at h
    | cons c rest =>
      simp only [parseMembers] at h
      split at h
      · split at h
        · simp at h
        · split at h
          · simp at h
          · split at h
            · split at h
              · simp at h
              · rename_i w rest3 hv
                split at h
                · simp at h
                · split at h
                  · split at h
                    · rename_i ms1 rest5 hm
                      simp only [Option.some.injEq, Prod.mk.injEq] at h
                      rw [← h.1]
                      intro m hmem t ht
                      simp only [List.mem_cons] at hmem
                      rcases hmem with rfl | hmem
                      · simp only at ht
                        subst ht
                        exact parseValue_string_valid _ _ _ _ _ hv
                      · exact ih _ _ _ _ hm m hmem t ht
                    · simp at h
                  · split at h
                    · simp only [Option.some.injEq, Prod.mk.injEq] at h
                      rw [← h.1]
                      intro m hmem t ht
                      simp only [List.mem_singleton] at hmem
                      subst hmem
                      simp only at ht
                      subst ht
                      exact parseValue_string_valid _ _ _ _ _ hv
                    · simp at h
            · simp at h
      · simp at h

theorem parse_object_valid (data : List Byte) (ms : List (List Byte × JValue))
    (h : parse data = some (JValue.object ms)) :
    ∀ m ∈ ms, ∀ t, m.2 = JValue.string t → utf8.Valid t = true := by
  unfold parse at h
  split at h
  · rename_i v rest hv
    split at h
    · simp only [Option.some.injEq] at h
      subst h
      cases hs : skipSpace data with
      | nil => rw [hs] at hv; simp [parseValue] at hv
      | cons c rest0 =>
        rw [hs] at hv
        simp only [parseValue] at hv
        split at hv
        · split at hv
          · simp at hv
          · split at hv
            · simp at hv
            · split at hv
              · simp only [Option.some.injEq, Prod.mk.injEq, JValue.object.injEq] at hv
                rw [← hv.1]
                intro m hm
                simp at hm
              · split at hv
                · rename_i ms1 rest2 hm
                  simp only [Option.some.injEq, Prod.mk.injEq, JValue.object.injEq] at hv
                  rw [← hv.1]
                  exact parseMembers_valid _ _ _ _ _ hm
                · simp at hv
        · split at hv
          · split at hv
            · simp at hv
            · split at hv
              · simp at hv
              · split at hv
                · simp at hv
                · split at hv
                  · simp at hv
                  · split at hv <;> simp at hv
          · split at hv
            · split at hv <;> simp at hv
            · split at hv
              · cases hx : expect [114, 117, 101] rest0 <;> rw [hx] at hv <;> simp at hv
              · split at hv
                · cases hx : expect [97, 108, 115, 101] rest0 <;> rw [hx] at hv <;> simp at hv
                · split at hv
                  · cases hx : expect [117, 108, 108] rest0 <;> rw [hx] at hv <;> simp at hv
                  · cases hx : scanNumber (c :: rest0) <;> rw [hx] at hv <;> simp at hv
    · simp at h
  · simp at h

theorem decodeMember_valid (acc : Invoice × Option UnmarshalError) (m : List Byte × JValue)
    (hacc : acc.1.valid = true) (hm : ∀ t, m.2 = JValue.string t → utf8.Valid t = true) :
    (decodeMember acc m).1.valid = true := by
  unfold decodeMember
  split
  · exact hacc
  · split
    · rename_i s hs
      exact Invoice.valid_set _ _ _ hacc (hm s hs)
    · exact hacc
    · exact hacc

theorem foldl_decodeMember_valid (ms : List (List Byte × JValue)) :
    ∀ acc : Invoice × Option UnmarshalError, acc.1.valid = true →
      (∀ m ∈ ms, ∀ t, m.2 = JValue.string t → utf8.Valid t = true) →
      (ms.foldl decodeMember acc).1.valid = true := by
  induction ms with
  | nil => intro acc hacc _; exact hacc
  | cons m ms ih =>
    intro acc hacc hms
    rw [List.foldl_cons]
    exact ih _ (decodeMember_valid acc m hacc (hms m (List.mem_cons_self _ _)))
      (fun x hx => hms x (List.mem_cons_of_mem _ hx))

/-- Decoding into a struct whose fields are valid UTF-8 leaves every field valid
UTF-8, whatever the input bytes. -/
theorem Unmarshal_valid (data : GoString) (v : Invoice) (hv : v.valid = true) :
    (Unmarshal data v).1.valid = true := by
  unfold Unmarshal
  split
  · exact hv
  · rename_i ms hp
    exact foldl_decodeMember_valid ms _ hv (parse_object_valid data ms hp)
  · exact hv
  · exact hv

end json

/-! ## The world state -/

theorem stringLess_irrefl (s : List Byte) : stringLess s s = false := by
  induction s with
  | nil => rfl
  | cons a s ih => simp [stringLess, ih]

theorem Ledger.get?_put_same (l : Ledger) (key value : GoString) :
    (l.put key value).get? key = some value := by
  induction l with
  | nil => simp [Ledger.put, Ledger.get?]
  | cons e l ih =>
    obtain ⟨k, v⟩ := e
    rw [Ledger.put]
    split
    · simp [Ledger.get?]
    · split
      · simp [Ledger.get?]
      · rename_i h1 h2
        simp [Ledger.get?, h2, ih]

theorem Ledger.get?_put_other (l : Ledger) (key value other : GoString) (h : other ≠ key) :
    (l.put key value).get? other = l.get? other := by
  induction l with
  | nil => simp [Ledger.put, Ledger.get?, Ne.symm h]
  | cons e l ih =>
    obtain ⟨k, v⟩ := e
    rw [Ledger.put]
    split
    · simp [Ledger.get?, Ne.symm h]
    · split
      · rename_i h1 h2
        subst h2
        simp [Ledger.get?, Ne.symm h]
      · simp [Ledger.get?, ih]

theorem Ledger.put_put_same (l : Ledger) (key value : GoString) :
    (l.put key value).put key value = l.put key value := by
  induction l with
  | nil => simp [Ledger.put, stringLess_irrefl]
  | cons e l ih =>
    obtain ⟨k, v⟩ := e
    rw [Ledger.put]
    split
    · simp [Ledger.put, stringLess_irrefl]
    · split
      · simp [Ledger.put, stringLess_irrefl]
      · rename_i h1 h2
        simp [Ledger.put, h1, h2, ih]

theorem stringLess_trans (a b c : List Byte) (h1 : stringLess a b = true)
    (h2 : stringLess b c = true) : stringLess a c = true := by
  induction a generalizing b c with
  | nil =>
    cases c with
    | nil => cases b <;> simp [stringLess] at h2
    | cons z c => simp [stringLess]
  | cons x a ih =>
    cases b with
    | nil => simp [stringLess] at h1
    | cons y b =>
      cases c with
      | nil => simp [stringLess] at h2
      | cons z c =>
        simp only [stringLess, Bool.or_eq_true, decide_eq_true_eq, Bool.and_eq_true] at h1 h2 ⊢
        rcases h1 with h1 | ⟨rfl, h1⟩
        · rcases h2 with h2 | ⟨rfl, h2⟩
          · exact Or.inl (by omega)
          · exact Or.inl h1
        · rcases h2 with h2 | ⟨rfl, h2⟩
          · exact Or.inl h2
          · exact Or.inr ⟨rfl, ih _ _ h1 h2⟩

theorem stringLess_total (a b : List Byte) (h1 : stringLess a b = false) (h2 : a ≠ b) :
    stringLess b a = true := by
  induction a generalizing b with
  | nil =>
    cases b with
    | nil => exact absurd rfl h2
    | cons y b => simp [stringLess] at h1
  | cons x a ih =>
    cases b with
    | nil => simp [stringLess]
    | cons y b =>
      simp only [stringLess, Bool.or_eq_false_iff, decide_eq_false_iff_not, Bool.and_eq_false_iff,
        Bool.or_eq_true, decide_eq_true_eq, Bool.and_eq_true] at h1 ⊢
      obtain ⟨hlt, hrest⟩ := h1
      by_cases hxy : x = y
      · subst hxy
        have hab : a ≠ b := fun h => h2 (by rw [h])
        rcases hrest with hne | hrest
        · exact absurd rfl hne
        · exact Or.inr ⟨rfl, ih b hrest hab⟩
      · have : x.val ≠ y.val := fun h => hxy (Fin.ext h)
        exact Or.inl (by omega)

theorem Ledger.mem_put (l : Ledger) (key value : GoString) (x : GoString × GoString)
    (hx : x ∈ l.put key value) : x = (key, value) ∨ x ∈ l := by
  induction l with
  | nil => simpa [Ledger.put] using hx
  | cons e l ih =>
    obtain ⟨k, v⟩ := e
    rw [Ledger.put] at hx
    split at hx
    · simpa using hx
    · split at hx
      · simp only [List.mem_cons] at hx ⊢
        rcases hx with hx | hx
        · exact Or.inl hx
        · exact Or.inr (Or.inr hx)
      · simp only [List.mem_cons] at hx ⊢
        rcases hx with hx | hx
        · exact Or.inr (Or.inl hx)
        · rcases ih hx with h | h
          · exact Or.inl h
          · exact Or.inr (Or.inr h)

theorem Ledger.ordered_put (l : Ledger) (key value : GoString) (h : l.ordered) :
    (l.put key value).ordered := by
  unfold Ledger.ordered at h ⊢
  induction l with
  | nil => simp [Ledger.put]
  | cons e l ih =>
    obtain ⟨k, v⟩ := e
    rw [List.pairwise_cons] at h
    obtain ⟨hhead, htail⟩ := h
    rw [Ledger.put]
    split
    · rename_i hlt
      refine List.pairwise_cons.2 ⟨?_, List.pairwise_cons.2 ⟨hhead, htail⟩⟩
      intro x hx
      simp only [List.mem_cons] at hx
      rcases hx with rfl | hx
      · exact hlt
      · exact stringLess_trans _ _ _ hlt (hhead x hx)
    · split
      · rename_i hlt heq
        subst heq
        exact List.pairwise_cons.2 ⟨hhead, htail⟩
      · rename_i hlt hne
        refine List.pairwise_cons.2 ⟨?_, ih htail⟩
        intro x hx
        rcases Ledger.mem_put l key value x hx with rfl | hx
        · refine stringLess_total _ _ (by simpa using hlt) ?_
          intro hd
          exact hne hd.symm
        · exact hhead x hx

/-! ## The chaincode stub -/

theorem PutState_state_of_ne (stub : ChaincodeStub) (k v : GoString) (hk : k ≠ []) :
    (stub.PutState k v).2.state = stub.state.put k v := by
  simp [ChaincodeStub.PutState, hk]

theorem PutState_state_empty (stub : ChaincodeStub) (v : GoString) :
    (stub.PutState [] v).2.state = stub.state := by
  simp [ChaincodeStub.PutState, ChaincodeStub.record]

theorem PutState_calls (stub : ChaincodeStub) (k v : GoString) :
    (stub.PutState k v).2.calls = stub.calls ++ [StubCall.PutState k v] := by
  unfold ChaincodeStub.PutState
  split <;> rfl

/-- Writing the same value under the same key twice leaves the world state the
first write left, whether the key is accepted or refused. -/
theorem PutState_twice (stub stub1 : ChaincodeStub) (k v : GoString)
    (h : stub1.state = (stub.PutState k v).2.state) :
    (stub1.PutState k v).2.state = stub1.state := by
  by_cases hk : k = []
  · subst hk
    exact PutState_state_empty stub1 v
  · rw [PutState_state_of_ne _ _ _ hk, h, PutState_state_of_ne _ _ _ hk, Ledger.put_put_same]

/-! ## The response loops -/

theorem joinWith_cons_cons (sep x y : GoString) (l : List GoString) :
    joinWith sep (x :: y :: l) = x ++ sep ++ joinWith sep (y :: l) := rfl

theorem writeResults_more (label opening : GoString)
    (hop : opening ++ go "\"" = go "\x7b\"" ++ label ++ go "\":\"")
    (es : List KV) (buffer x : GoString) :
    writeResults opening (es.map Except.ok) (buffer ++ x) true
      = Except.ok (buffer ++ joinWith (go ",") (x :: es.map (envelopeEntry label))) := by
  induction es generalizing buffer x with
  | nil => simp [writeResults, joinWith]
  | cons e es ih =>
    have hentry : opening ++ go "\"" ++ e.Key ++ go "\"" ++ go ", \"Record\":" ++ e.Value
        ++ go "\x7d" = envelopeEntry label e := by
      rw [hop]
      simp only [envelopeEntry, List.append_assoc]
      rfl
    have hb : buffer ++ x ++ go "," ++ opening ++ go "\"" ++ e.Key ++ go "\""
        ++ go ", \"Record\":" ++ e.Value ++ go "\x7d"
        = (buffer ++ x ++ go ",") ++ envelopeEntry label e := by
      rw [← hentry]
      simp only [List.append_assoc]
    simp only [List.map_cons, writeResults, if_true]
    rw [hb, ih, joinWith_cons_cons]
    simp only [List.append_assoc]

theorem writeResults_all (label opening : GoString)
    (hop : opening ++ go "\"" = go "\x7b\"" ++ label ++ go "\":\"")
    (es : List KV) :
    (writeResults opening (es.map Except.ok) (go "[") false).map
        (fun buffer => buffer ++ go "]")
      = Except.ok (envelope label es) := by
  cases es with
  | nil => simp [writeResults, envelope, joinWith, Except.map]
  | cons e es =>
    have hentry : opening ++ go "\"" ++ e.Key ++ go "\"" ++ go ", \"Record\":" ++ e.Value
        ++ go "\x7d" = envelopeEntry label e := by
      rw [hop]
      simp only [envelopeEntry, List.append_assoc]
      rfl
    have hfirst : go "[" ++ opening ++ go "\"" ++ e.Key ++ go "\"" ++ go ", \"Record\":"
        ++ e.Value ++ go "\x7d" = go "[" ++ envelopeEntry label e := by
      rw [← hentry]
      simp only [List.append_assoc]
    simp only [List.map_cons, writeResults, Bool.false_eq_true, if_false]
    rw [hfirst, writeResults_more label opening hop]
    simp only [Except.map, envelope, List.map_cons]

theorem writeHistory_more (timeString : Int → Int → GoString) (h : List KeyModification)
    (buffer x : GoString) :
    writeHistory timeString (h.map Except.ok) (buffer ++ x) true
      = Except.ok (buffer ++ joinWith (go ",") (x :: h.map (historyEntry timeString))) := by
  induction h generalizing buffer x with
  | nil => simp [writeHistory, joinWith]
  | cons e es ih =>
    have hb : buffer ++ x ++ go "," ++ go "\x7b\"TxId\":" ++ go "\"" ++ e.TxId ++ go "\""
        ++ go ", \"Value\":" ++ e.Value ++ go ", \"Timestamp\":" ++ go "\""
        ++ timeString e.Seconds e.Nanos ++ go "\"" ++ go "\x7d"
        = (buffer ++ x ++ go ",") ++ historyEntry timeString e := by
      simp only [historyEntry, List.append_assoc]
      rfl
    simp only [List.map_cons, writeHistory, if_true]
    rw [hb, ih, joinWith_cons_cons]
    simp only [List.append_assoc]

theorem writeHistory_all (timeString : Int → Int → GoString) (h : List KeyModification) :
    (writeHistory timeString (h.map Except.ok) (go "[") false).map
        (fun buffer => buffer ++ go "]")
      = Except.ok (historyEnvelope timeString h) := by
  cases h with
  | nil => simp [writeHistory, historyEnvelope, joinWith, Except.map]
  | cons e es =>
    have hfirst : go "[" ++ go "\x7b\"TxId\":" ++ go "\"" ++ e.TxId ++ go "\""
        ++ go ", \"Value\":" ++ e.Value ++ go ", \"Timestamp\":" ++ go "\""
        ++ timeString e.Seconds e.Nanos ++ go "\"" ++ go "\x7d"
        = go "[" ++ historyEntry timeString e := by
      simp only [historyEntry, List.append_assoc]
      rfl
    simp only [List.map_cons, writeHistory, Bool.false_eq_true, if_false]
    rw [hfirst, writeHistory_more]
    simp only [Except.map, historyEnvelope, List.map_cons]

theorem queryAllinvoices_ok (b : Backend) (stub : ChaincodeStub) (es : List KV)
    (h : b.GetStateByRange stub.state (go "INV0") (go "INV999") = Except.ok (es.map Except.ok)) :
    queryAllinvoices b stub
      = some (shim.Success (envelope (go "Invoice") es),
          stub.record (StubCall.GetStateByRange (go "INV0") (go "INV999"))) := by
  have hw := writeResults_all (go "Invoice") (go "\x7b\"Invoice\":") (by decide) es
  simp only [queryAllinvoices, h]
  cases hr : writeResults (go "\x7b\"Invoice\":") (es.map Except.ok) (go "[") false with
  | error err => rw [hr] at hw; simp [Except.map] at hw
  | ok buffer =>
    rw [hr] at hw
    simp only [Except.map, Except.ok.injEq] at hw
    simp [hw]

theorem scanRange_mem (l : Ledger) (s e k v : GoString) :
    KV.mk k v ∈ scanRange l s e
      ↔ ((k, v) ∈ l ∧ stringLess k s = false ∧ stringLess k e = true) := by
  simp only [scanRange, List.mem_map, List.mem_filter, Bool.and_eq_true, Bool.not_eq_true']
  constructor
  · rintro ⟨⟨k1, v1⟩, ⟨hm, h1, h2⟩, heq⟩
    simp only [KV.mk.injEq] at heq
    obtain ⟨rfl, rfl⟩ := heq
    exact ⟨hm, h1, h2⟩
  · rintro ⟨hm, h1, h2⟩
    exact ⟨(k, v), ⟨hm, h1, h2⟩, rfl⟩

theorem scanRange_pairwise (l : Ledger) (s e : GoString) (hord : l.ordered) :
    (scanRange l s e).Pairwise (fun x y => stringLess x.Key y.Key = true) := by
  unfold scanRange
  exact List.Pairwise.map _ (fun _ _ h => h) (List.Pairwise.filter _ hord)

/-! ## Unfolding the handlers -/

theorem record_ne (stub : ChaincodeStub) (c : StubCall) : stub.record c ≠ stub := by
  intro h
  have := congrArg (fun s => s.calls.length) h
  simp [ChaincodeStub.record] at this

theorem PutState_ne (stub : ChaincodeStub) (k v : GoString) : (stub.PutState k v).2 ≠ stub := by
  intro h
  have := congrArg (fun s => s.calls.length) h
  simp [PutState_calls] at this

theorem getHistoryForInvoice_cons (b : Backend) (stub : ChaincodeStub) (k : GoString)
    (rest : List GoString) :
    getHistoryForInvoice b stub (k :: rest)
      = match b.GetHistoryForKey stub.state k with
        | Except.error err => some (shim.Error err, stub.record (StubCall.GetHistoryForKey k))
        | Except.ok resultsIterator =>
          match writeHistory b.timeString resultsIterator (go "[") false with
          | Except.error err => some (shim.Error err, stub.record (StubCall.GetHistoryForKey k))
          | Except.ok buffer =>
            some (shim.Success (buffer ++ go "]"),
              stub.record (StubCall.GetHistoryForKey k)) := by
  simp [getHistoryForInvoice]

theorem getHistoryForInvoice_calls (b : Backend) (stub : ChaincodeStub) (k : GoString)
    (rest : List GoString) :
    ∃ resp, getHistoryForInvoice b stub (k :: rest)
      = some (resp, stub.record (StubCall.GetHistoryForKey k)) := by
  rw [getHistoryForInvoice_cons]
  cases b.GetHistoryForKey stub.state k with
  | error err => exact ⟨_, rfl⟩
  | ok it =>
    simp only []
    cases writeHistory b.timeString it (go "[") false with
    | error err => exact ⟨_, rfl⟩
    | ok buffer => exact ⟨_, rfl⟩

theorem newInvoice_eq (stub : ChaincodeStub) (a0 a1 a2 a3 a4 a5 a6 a7 a8 a9 a10 : GoString) :
    newInvoice stub [a0, a1, a2, a3, a4, a5, a6, a7, a8, a9, a10] = some (shim.Success [],
      (stub.PutState a0 (json.Marshal (Invoice.mk a1 a2 a3 a4 a5 a6 a7 a8 a9 a10))).2) := by
  simp [newInvoice]

theorem isGoodsReceived_eq (stub : ChaincodeStub) (k v : GoString) :
    isGoodsReceived stub [k, v] = some (shim.Success [],
      ((stub.record (StubCall.GetState k)).PutState k
        (json.Marshal
          { (json.Unmarshal ((stub.state.get? k).getD []) Invoice.zero).1 with GR := v })).2) := by
  simp [isGoodsReceived, ChaincodeStub.GetState]

theorem isPaidToSupplier_eq (stub : ChaincodeStub) (k amount flag : GoString) :
    isPaidToSupplier stub [k, amount, flag] = some (shim.Success [],
      ((stub.record (StubCall.GetState k)).PutState k
        (json.Marshal
          { (json.Unmarshal ((stub.state.get? k).getD []) Invoice.zero).1 with
            PaidAmount := amount, IsPaid := flag })).2) := by
  simp [isPaidToSupplier, ChaincodeStub.GetState]

theorem isGoodsReceived_state (stub : ChaincodeStub) (k v : GoString) :
    ∃ stub1 : ChaincodeStub,
      isGoodsReceived stub [k, v] = some (shim.Success [], stub1) ∧
      stub1.state = (stub.PutState k (json.Marshal
        (((json.Unmarshal ((stub.state.get? k).getD []) Invoice.zero).1).set Field.GR v))).2.state := by
  refine ⟨_, isGoodsReceived_eq stub k v, ?_⟩
  by_cases hk : k = []
  · subst hk
    rw [PutState_state_empty, PutState_state_empty]
    rfl
  · rw [PutState_state_of_ne _ _ _ hk, PutState_state_of_ne _ _ _ hk]
    rfl

theorem isPaidToBank_eq (stub : ChaincodeStub) (k amount flag : GoString) :
    isPaidToBank stub [k, amount, flag] = some (shim.Success [],
      ((stub.record (StubCall.GetState k)).PutState k
        (json.Marshal
          { (json.Unmarshal ((stub.state.get? k).getD []) Invoice.zero).1 with
            RepaymentAmount := amount, Repaid := flag })).2) := by
  simp [isPaidToBank, ChaincodeStub.GetState]

theorem Success_ne_Error (payload msg : GoString) : shim.Success payload ≠ shim.Error msg := by
  simp [shim.Success, shim.Error]

theorem Invoke_createInvoiceWithJsonInput (b : Backend) (stub : ChaincodeStub)
    (args : List GoString) :
    Invoke b stub (go "createInvoiceWithJsonInput") args
      = createInvoiceWithJsonInput stub args := by
  unfold Invoke
  rw [if_neg (by decide), if_neg (by decide), if_neg (by decide), if_pos rfl]

/-! ## Sample evaluation of the `Car` codec -/

set_option maxRecDepth 100000 in
theorem MarshalCar_sample :
    json.MarshalCar (Car.mk [] (go "Unionbank") [] [] [] (go "N") (go "N") (go "0") (go "N")
        (go "0"))
      = go "\x7b\"invoiceNumber\":\"\",\"billedTo\":\"Unionbank\",\"invoiceDate\":\"\",\"invoiceAmount\":\"\",\"itemDescription\":\"\",\"gr\":\"N\",\"isPaid\":\"N\",\"paidAmount\":\"0\",\"repaid\":\"N\",\"repayment\":\"0\"\x7d" :=
  rfl

/-! ## Which invocations panic -/

theorem newInvoice_ne_none (stub : ChaincodeStub) (args : List GoString) :
    newInvoice stub args ≠ none := by
  by_cases h : args.length = 11
  · rcases args with _ | ⟨a0, _ | ⟨a1, _ | ⟨a2, _ | ⟨a3, _ | ⟨a4, _ | ⟨a5, _ | ⟨a6, _ |
      ⟨a7, _ | ⟨a8, _ | ⟨a9, _ | ⟨a10, _ | ⟨a11, l⟩⟩⟩⟩⟩⟩⟩⟩⟩⟩⟩⟩ <;> simp at h
    simp [newInvoice]
  · simp [newInvoice, h]

theorem isGoodsReceived_ne_none (stub : ChaincodeStub) (args : List GoString) :
    isGoodsReceived stub args ≠ none := by
  by_cases h : args.length = 2
  · rcases args with _ | ⟨a0, _ | ⟨a1, _ | ⟨a2, l⟩⟩⟩ <;> simp at h
    simp [isGoodsReceived]
  · simp [isGoodsReceived, h]

theorem isPaidToSupplier_ne_none (stub : ChaincodeStub) (args : List GoString) :
    isPaidToSupplier stub args ≠ none := by
  by_cases h : args.length = 3
  · rcases args with _ | ⟨a0, _ | ⟨a1, _ | ⟨a2, _ | ⟨a3, l⟩⟩⟩⟩ <;> simp at h
    simp [isPaidToSupplier]
  · simp [isPaidToSupplier, h]

theorem isPaidToBank_ne_none (stub : ChaincodeStub) (args : List GoString) :
    isPaidToBank stub args ≠ none := by
  by_cases h : args.length = 3
  · rcases args with _ | ⟨a0, _ | ⟨a1, _ | ⟨a2, _ | ⟨a3, l⟩⟩⟩⟩ <;> simp at h
    simp [isPaidToBank]
  · simp [isPaidToBank, h]

theorem queryAllinvoices_ne_none (b : Backend) (stub : ChaincodeStub) :
    queryAllinvoices b stub ≠ none := by
  simp only [queryAllinvoices]
  split
  · simp
  · split <;> simp

theorem getHistoryForInvoice_ne_none (b : Backend) (stub : ChaincodeStub)
    (args : List GoString) :
    getHistoryForInvoice b stub args ≠ none := by
  cases args with
  | nil => simp [getHistoryForInvoice]
  | cons k rest =>
    obtain ⟨resp, hr⟩ := getHistoryForInvoice_calls b stub k rest
    rw [hr]
    simp

theorem createInvoiceWithJsonInput_eq_none_iff (stub : ChaincodeStub) (args : List GoString) :
    createInvoiceWithJsonInput stub args = none ↔ args.length = 1 := by
  by_cases h : args.length = 1
  · rcases args with _ | ⟨a0, _ | ⟨a1, l⟩⟩ <;> simp at h
    simp [createInvoiceWithJsonInput]
  · simp [createInvoiceWithJsonInput, h]

theorem queryCar_ne_none (stub : ChaincodeStub) (args : List GoString) :
    InvoiceGo.queryCar stub args ≠ none := by
  by_cases h : args.length = 1
  · rcases args with _ | ⟨a0, _ | ⟨a1, l⟩⟩ <;> simp at h
    simp [InvoiceGo.queryCar]
  · simp [InvoiceGo.queryCar, h]

theorem createInvoice_eq_none_iff (stub : ChaincodeStub) (args : List GoString) :
    InvoiceGo.createInvoice stub args = none ↔ args.length = 5 := by
  by_cases h : args.length = 5
  · rcases args with _ | ⟨a0, _ | ⟨a1, _ | ⟨a2, _ | ⟨a3, _ | ⟨a4, _ | ⟨a5, l⟩⟩⟩⟩⟩⟩ <;> simp at h
    simp [InvoiceGo.createInvoice]
  · simp [InvoiceGo.createInvoice, h]

theorem createCarWithJsonInput_ne_none (stub : ChaincodeStub) (args : List GoString) :
    InvoiceGo.createCarWithJsonInput stub args ≠ none := by
  by_cases h : args.length = 2
  · rcases args with _ | ⟨a0, _ | ⟨a1, _ | ⟨a2, l⟩⟩⟩ <;> simp at h
    simp only [InvoiceGo.createCarWithJsonInput]
    simp
    split <;> simp
  · simp [InvoiceGo.createCarWithJsonInput, h]

theorem queryAllInvoice_ne_none (b : Backend) (stub : ChaincodeStub) :
    InvoiceGo.queryAllInvoice b stub ≠ none := by
  simp only [InvoiceGo.queryAllInvoice]
  split
  · simp
  · split <;> simp

theorem Invoke_eq_none_iff (b : Backend) (stub : ChaincodeStub) (function : GoString)
    (args : List GoString) :
    Invoke b stub function args = none
      ↔ (function = go "createInvoiceWithJsonInput" ∧ args.length = 1) := by
  unfold Invoke
  split
  · rename_i h; subst h
    simp only [newInvoice_ne_none, false_iff, not_and]
    intro h; exact absurd h (by decide)
  · split
    · rename_i h; subst h
      simp only [queryAllinvoices_ne_none, false_iff, not_and]
      intro h; exact absurd h (by decide)
    · split
      · rename_i h; subst h
        simp only [getUser, false_iff, not_and, reduceCtorEq]
        intro h; exact absurd h (by decide)
      · split
        · rename_i h; subst h
          simp [createInvoiceWithJsonInput_eq_none_iff]
        · rename_i h4
          split
          · simp [isGoodsReceived_ne_none, h4]
          · split
            · simp [isPaidToSupplier_ne_none, h4]
            · split
              · simp [isPaidToBank_ne_none, h4]
              · split
                · simp [getHistoryForInvoice_ne_none, h4]
                · simp [h4]

theorem InvoiceGo_Invoke_eq_none_iff (b : Backend) (stub : ChaincodeStub) (function : GoString)
    (args : List GoString) :
    InvoiceGo.Invoke b stub function args = none
      ↔ (function = go "createCar" ∧ args.length = 5) := by
  unfold InvoiceGo.Invoke
  split
  · rename_i h; subst h
    simp only [queryCar_ne_none, false_iff, not_and]
    intro h; exact absurd h (by decide)
  · split
    · rename_i h; subst h
      simp only [InvoiceGo.initLedger, false_iff, not_and, reduceCtorEq]
      intro h; exact absurd h (by decide)
    · split
      · rename_i h; subst h
        simp [createInvoice_eq_none_iff]
      · rename_i h3
        split
        · simp [queryAllInvoice_ne_none, h3]
        · split
          · simp [InvoiceGo.getUser, h3]
          · split
            · simp [createCarWithJsonInput_ne_none, h3]
            · simp [h3]

/-! ## Sample evaluations of the codec -/

set_option maxRecDepth 100000 in
theorem Marshal_sampleInvoice :
    json.Marshal sampleInvoice
      = go "\x7b\"invoiceNumber\":\"1001\",\"billedTo\":\"Acme\",\"invoiceDate\":\"2018-06-01\",\"invoiceAmount\":\"1000\",\"itemDescription\":\"widgets\",\"gr\":\"N\",\"isPaid\":\"N\",\"paidAmount\":\"0\",\"repaid\":\"N\",\"repaymentAmount\":\"0\"\x7d" :=
  rfl

set_option maxRecDepth 100000 in
theorem Marshal_escapes :
    json.Marshal { Invoice.zero with BilledTo := go "A&B <\"x\">\n" }
      = go "\x7b\"invoiceNumber\":\"\",\"billedTo\":\"A\\u0026B \\u003c\\\"x\\\"\\u003e\\n\",\"invoiceDate\":\"\",\"invoiceAmount\":\"\",\"itemDescription\":\"\",\"gr\":\"\",\"isPaid\":\"\",\"paidAmount\":\"\",\"repaid\":\"\",\"repaymentAmount\":\"\"\x7d" :=
  rfl

/-- The encoder writes a byte that is not valid UTF-8 as the escape of U+FFFD. -/
theorem appendString_invalid :
    json.appendString sampleInvalid = go "\"5\\ufffd\"" :=
  rfl

/-- The encoder copies valid multi-byte text and escapes the line separator. -/
theorem appendString_multibyte :
    json.appendString (go "é€😀\u2028") = go "\"é€😀\\u2028\"" :=
  rfl

/-- The coercion replaces each invalid byte by the three bytes of U+FFFD. -/
theorem coerceUTF8_invalid :
    json.coerceUTF8 sampleInvalid = [53, 239, 191, 189]
      ∧ utf8.Valid sampleInvalid = false
      ∧ json.coerceUTF8 [255, 195, 169, 226, 130] = [239, 191, 189, 195, 169, 239, 191, 189,
          239, 191, 189] :=
  ⟨rfl, rfl, rfl⟩

theorem Unmarshal_empty_input :
    json.Unmarshal [] Invoice.zero = (Invoice.zero, some json.UnmarshalError.SyntaxError) :=
  rfl

set_option maxRecDepth 100000 in
theorem Unmarshal_tolerant :
    json.Unmarshal
        (go "\x7b \"GR\" : \"Y\", \"billedTo\": 5, \"extra\": [1, \x7b\"a\": null\x7d, -0.5e+10], \"repaid\": null, \"gr\": \"\\u0059es\" \x7d")
        sampleInvoice
      = ({ sampleInvoice with GR := go "Yes" }, some json.UnmarshalError.UnmarshalTypeError) :=
  rfl

set_option maxRecDepth 100000 in
theorem Unmarshal_truncated :
    json.Unmarshal (go "\x7b\"gr\":\"Y\"") sampleInvoice
      = (sampleInvoice, some json.UnmarshalError.SyntaxError) :=
  rfl

/-- The decoder replaces a raw invalid byte inside a string literal by U+FFFD and
joins a surrogate pair of escapes into one rune. -/
theorem Unmarshal_invalid_bytes :
    (json.Unmarshal (go "\x7b\"gr\":\"" ++ [255] ++ go "\\ud83d\\ude00\"\x7d") Invoice.zero)
      = ({ Invoice.zero with GR := [239, 191, 189] ++ go "😀" }, none) := by
  decide

/-! ## The claims -/

/-- C1, as amended: partial-update preservation of `isPaidToSupplier`.  If a
non-empty key `k` holds the encoding of a record `r`, then invoking the handler
with `[k, amount, flag]` returns success, every other key keeps its value, and the
text left under `k` decodes without error to the record that has `PaidAmount`
equal to `amount`, `IsPaid` equal to `flag` and the eight other fields of `r`,
each of the ten coerced to valid UTF-8.  When the fields of `r`, `amount` and
`flag` are valid UTF-8 the decoded record has exactly `PaidAmount = amount`,
`IsPaid = flag` and the eight other fields of `r`. -/
theorem isPaidToSupplier_preserves_other_fields (stub : ChaincodeStub)
    (k amount flag : GoString) (r : Invoice) (hne : k ≠ [])
    (hk : stub.state.get? k = some (json.Marshal r)) :
    ∃ (stub1 : ChaincodeStub) (text : GoString),
      isPaidToSupplier stub [k, amount, flag] = some (shim.Success [], stub1) ∧
      stub1.state.get? k = some text ∧
      json.Unmarshal text Invoice.zero
        = ({ r.coerce with PaidAmount := json.coerceUTF8 amount,
                           IsPaid := json.coerceUTF8 flag }, none) ∧
      (r.valid = true → utf8.Valid amount = true → utf8.Valid flag = true →
        json.Unmarshal text Invoice.zero
          = ({ r with PaidAmount := amount, IsPaid := flag }, none)) ∧
      ∀ other, other ≠ k → stub1.state.get? other = stub.state.get? other := by
  have hdec : json.Unmarshal
      (json.Marshal { r.coerce with PaidAmount := amount, IsPaid := flag }) Invoice.zero
      = ({ r.coerce with PaidAmount := json.coerceUTF8 amount,
                         IsPaid := json.coerceUTF8 flag }, none) := by
    rw [json.Unmarshal_Marshal]
    have h2 := Invoice.coerce_coerce r
    simp only [Invoice.coerce, Invoice.mk.injEq] at h2 ⊢
    simp [h2]
  refine ⟨((stub.record (StubCall.GetState k)).PutState k
      (json.Marshal { r.coerce with PaidAmount := amount, IsPaid := flag })).2,
    json.Marshal { r.coerce with PaidAmount := amount, IsPaid := flag }, ?_, ?_, hdec, ?_, ?_⟩
  · rw [isPaidToSupplier_eq, hk]
    simp [json.Unmarshal_Marshal]
  · rw [PutState_state_of_ne _ _ _ hne]
    exact Ledger.get?_put_same _ _ _
  · intro hr ha hf
    rw [hdec, Invoice.coerce_of_valid r hr, json.coerceUTF8_of_valid amount ha,
      json.coerceUTF8_of_valid flag hf]
  · intro other ho
    rw [PutState_state_of_ne _ _ _ hne]
    exact Ledger.get?_put_other _ _ _ _ ho

/-- C1 at the sample stub, whose key `INV0` holds the encoding of `sampleInvoice`. -/
theorem isPaidToSupplier_preserves_other_fields_witness :
    go "INV0" ≠ [] ∧
    sampleStub.state.get? (go "INV0") = some (json.Marshal sampleInvoice) ∧
    sampleInvoice.valid = true ∧ utf8.Valid (go "500") = true ∧ utf8.Valid (go "Y") = true ∧
    ∃ (stub1 : ChaincodeStub) (text : GoString),
      isPaidToSupplier sampleStub [go "INV0", go "500", go "Y"]
        = some (shim.Success [], stub1) ∧
      stub1.state.get? (go "INV0") = some text ∧
      json.Unmarshal text Invoice.zero
        = ({ sampleInvoice.coerce with PaidAmount := json.coerceUTF8 (go "500"),
                                       IsPaid := json.coerceUTF8 (go "Y") }, none) ∧
      (sampleInvoice.valid = true → utf8.Valid (go "500") = true → utf8.Valid (go "Y") = true →
        json.Unmarshal text Invoice.zero
          = ({ sampleInvoice with PaidAmount := go "500", IsPaid := go "Y" }, none)) ∧
      ∀ other, other ≠ go "INV0" → stub1.state.get? other = sampleStub.state.get? other :=
  ⟨by decide, rfl, rfl, rfl, rfl,
    isPaidToSupplier_preserves_other_fields sampleStub (go "INV0") (go "500") (go "Y")
      sampleInvoice (by decide) rfl⟩

set_option maxRecDepth 100000 in
/-- C1 as stated fails for strings that are not valid UTF-8.  With the amount
`5\xff` on the key `INV0` of the sample stub, the handler succeeds and the record
left under `INV0` has the `PaidAmount` `5` followed by U+FFFD, not the amount.
With the key `INV1` holding the encoding of a record whose `BilledTo` is `5\xff`,
the record left under `INV1` has the `BilledTo` `5` followed by U+FFFD, not that
of the record. -/
theorem isPaidToSupplier_counterexample :
    (sampleStub.state.get? (go "INV0") = some (json.Marshal sampleInvoice) ∧
      ∃ (stub1 : ChaincodeStub) (text : GoString),
        isPaidToSupplier sampleStub [go "INV0", [53, 255], go "Y"]
          = some (shim.Success [], stub1) ∧
        stub1.state.get? (go "INV0") = some text ∧
        (json.Unmarshal text Invoice.zero).1.PaidAmount = [53, 239, 191, 189] ∧
        (json.Unmarshal text Invoice.zero).1.PaidAmount ≠ [53, 255]) ∧
    (sampleInvalidStub.state.get? (go "INV1") = some (json.Marshal sampleInvalidInvoice) ∧
      sampleInvalidInvoice.BilledTo = [53, 255] ∧
      ∃ (stub1 : ChaincodeStub) (text : GoString),
        isPaidToSupplier sampleInvalidStub [go "INV1", go "500", go "Y"]
          = some (shim.Success [], stub1) ∧
        stub1.state.get? (go "INV1") = some text ∧
        (json.Unmarshal text Invoice.zero).1.BilledTo = [53, 239, 191, 189] ∧
        (json.Unmarshal text Invoice.zero).1.BilledTo ≠ sampleInvalidInvoice.BilledTo) :=
  ⟨⟨rfl, _, _, rfl, rfl, rfl, by decide⟩, ⟨rfl, rfl, _, _, rfl, rfl, rfl, by decide⟩⟩

/-- C2, as amended: `newInvoice` creates the full record.  For every stub and
every list of exactly eleven arguments whose first is not empty, the handler
returns success, every other key keeps its value, and the value stored under the
first argument, whether or not the key had a value before, decodes without error
to the record whose ten fields are the other ten arguments in order, each coerced
to valid UTF-8; when those ten arguments are valid UTF-8 the decoded record has
exactly them as its fields. -/
theorem newInvoice_creates_record (stub : ChaincodeStub)
    (a0 a1 a2 a3 a4 a5 a6 a7 a8 a9 a10 : GoString) (hne : a0 ≠ []) :
    ∃ (stub1 : ChaincodeStub) (text : GoString),
      newInvoice stub [a0, a1, a2, a3, a4, a5, a6, a7, a8, a9, a10]
        = some (shim.Success [], stub1) ∧
      stub1.state.get? a0 = some text ∧
      json.Unmarshal text Invoice.zero
        = ((Invoice.mk a1 a2 a3 a4 a5 a6 a7 a8 a9 a10).coerce, none) ∧
      ((Invoice.mk a1 a2 a3 a4 a5 a6 a7 a8 a9 a10).valid = true →
        json.Unmarshal text Invoice.zero
          = (Invoice.mk a1 a2 a3 a4 a5 a6 a7 a8 a9 a10, none)) ∧
      ∀ other, other ≠ a0 → stub1.state.get? other = stub.state.get? other := by
  refine ⟨(stub.PutState a0 (json.Marshal (Invoice.mk a1 a2 a3 a4 a5 a6 a7 a8 a9 a10))).2,
    json.Marshal (Invoice.mk a1 a2 a3 a4 a5 a6 a7 a8 a9 a10), newInvoice_eq _ _ _ _ _ _ _ _ _ _ _ _,
    ?_, json.Unmarshal_Marshal _ _, ?_, ?_⟩
  · rw [PutState_state_of_ne _ _ _ hne]
    exact Ledger.get?_put_same _ _ _
  · intro hv
    rw [json.Unmarshal_Marshal, Invoice.coerce_of_valid _ hv]
  · intro other ho
    rw [PutState_state_of_ne _ _ _ hne]
    exact Ledger.get?_put_other _ _ _ _ ho

/-- C2 at the sample stub: the key `INV0`, which already has a value, is
overwritten with the record of the ten further arguments. -/
theorem newInvoice_creates_record_witness :
    go "INV0" ≠ [] ∧
    ∃ (stub1 : ChaincodeStub) (text : GoString),
      newInvoice sampleStub [go "INV0", go "1002", go "Bolt", go "2018-07-01", go "250",
          go "nuts", go "N", go "N", go "0", go "N", go "0"]
        = some (shim.Success [], stub1) ∧
      stub1.state.get? (go "INV0") = some text ∧
      json.Unmarshal text Invoice.zero
        = ((Invoice.mk (go "1002") (go "Bolt") (go "2018-07-01") (go "250") (go "nuts") (go "N")
            (go "N") (go "0") (go "N") (go "0")).coerce, none) ∧
      ((Invoice.mk (go "1002") (go "Bolt") (go "2018-07-01") (go "250") (go "nuts") (go "N")
            (go "N") (go "0") (go "N") (go "0")).valid = true →
        json.Unmarshal text Invoice.zero
          = (Invoice.mk (go "1002") (go "Bolt") (go "2018-07-01") (go "250") (go "nuts") (go "N")
            (go "N") (go "0") (go "N") (go "0"), none)) ∧
      ∀ other, other ≠ go "INV0" → stub1.state.get? other = sampleStub.state.get? other :=
  ⟨by decide, newInvoice_creates_record sampleStub (go "INV0") (go "1002") (go "Bolt")
    (go "2018-07-01") (go "250") (go "nuts") (go "N") (go "N") (go "0") (go "N") (go "0")
    (by decide)⟩

set_option maxRecDepth 100000 in
/-- C2 as stated fails in two ways.  With the empty string as first argument the
handler answers success although `PutState` refused the key: the world state is
unchanged and holds nothing under the empty key.  With the fifth argument `5\xff`,
which is not valid UTF-8, the value stored under the key decodes to a record
whose `InvoiceAmount` is `5` followed by U+FFFD, not the argument. -/
theorem newInvoice_counterexample :
    (∃ stub1 : ChaincodeStub,
      newInvoice sampleStub [[], go "1002", go "Bolt", go "2018-07-01", go "250", go "nuts",
          go "N", go "N", go "0", go "N", go "0"]
        = some (shim.Success [], stub1) ∧
      stub1.state = sampleStub.state ∧ stub1.state.get? [] = none) ∧
    (∃ (stub1 : ChaincodeStub) (text : GoString),
      newInvoice sampleStub [go "INV1", go "1002", go "Bolt", go "2018-07-01", [53, 255],
          go "nuts", go "N", go "N", go "0", go "N", go "0"]
        = some (shim.Success [], stub1) ∧
      stub1.state.get? (go "INV1") = some text ∧
      (json.Unmarshal text Invoice.zero).1.InvoiceAmount = [53, 239, 191, 189] ∧
      (json.Unmarshal text Invoice.zero).1.InvoiceAmount ≠ [53, 255]) :=
  ⟨⟨_, rfl, rfl, rfl⟩, ⟨_, _, rfl, rfl, rfl, by decide⟩⟩

/-- C3, as amended: codec round trip.  For every record `r`, the text
`json.Marshal` writes parses as the JSON object whose members are the ten tags
with the ten field values coerced to valid UTF-8, and `json.Unmarshal` of that
text, into any struct, returns no error and leaves the struct equal to `r` with
every field coerced to valid UTF-8; for a record whose ten fields are valid UTF-8
the struct is equal to `r` in all ten fields. -/
theorem codec_round_trip (r : Invoice) :
    json.parse (json.Marshal r) = some (json.JValue.object (json.membersOf r Field.all)) ∧
    (∀ v0 : Invoice, json.Unmarshal (json.Marshal r) v0 = (r.coerce, none)) ∧
    (r.valid = true → ∀ v0 : Invoice, json.Unmarshal (json.Marshal r) v0 = (r, none)) :=
  ⟨json.parse_encodeStruct r, fun v0 => json.Unmarshal_Marshal r v0,
    fun hr v0 => by rw [json.Unmarshal_Marshal, Invoice.coerce_of_valid r hr]⟩

/-- C3 at the sample record, whose fields are valid UTF-8. -/
theorem codec_round_trip_witness :
    sampleInvoice.valid = true ∧
    ∀ v0 : Invoice, json.Unmarshal (json.Marshal sampleInvoice) v0 = (sampleInvoice, none) :=
  ⟨rfl, (codec_round_trip sampleInvoice).2.2 rfl⟩

set_option maxRecDepth 100000 in
/-- C3 as stated fails for a record with a field that is not valid UTF-8: the
record whose `BilledTo` is the single byte `\xff` and whose other fields are
empty is encoded with the escape of U+FFFD and decodes to the record whose
`BilledTo` is the three bytes of U+FFFD. -/
theorem codec_round_trip_counterexample :
    json.Marshal { Invoice.zero with BilledTo := [255] }
      = go "\x7b\"invoiceNumber\":\"\",\"billedTo\":\"\\ufffd\",\"invoiceDate\":\"\",\"invoiceAmount\":\"\",\"itemDescription\":\"\",\"gr\":\"\",\"isPaid\":\"\",\"paidAmount\":\"\",\"repaid\":\"\",\"repaymentAmount\":\"\"\x7d" ∧
    json.Unmarshal (json.Marshal { Invoice.zero with BilledTo := [255] }) Invoice.zero
      = ({ Invoice.zero with BilledTo := [239, 191, 189] }, none) ∧
    (json.Unmarshal (json.Marshal { Invoice.zero with BilledTo := [255] }) Invoice.zero).1
      ≠ { Invoice.zero with BilledTo := [255] } :=
  ⟨rfl, rfl, by decide⟩

/-- C4: idempotence of `isGoodsReceived`.  For every stub, key and value, invoking
the handler twice in sequence with `[k, v]` succeeds both times and leaves exactly
the world state the first invocation left. -/
theorem isGoodsReceived_idempotent (stub : ChaincodeStub) (k v : GoString) :
    ∃ stub1 stub2 : ChaincodeStub,
      isGoodsReceived stub [k, v] = some (shim.Success [], stub1) ∧
      isGoodsReceived stub1 [k, v] = some (shim.Success [], stub2) ∧
      stub2.state = stub1.state := by
  obtain ⟨stub1, h1, hs1⟩ := isGoodsReceived_state stub k v
  obtain ⟨stub2, h2, hs2⟩ := isGoodsReceived_state stub1 k v
  refine ⟨stub1, stub2, h1, h2, ?_⟩
  rw [hs2]
  by_cases hk : k = []
  · subst hk
    exact PutState_state_empty stub1 _
  · have hget : stub1.state.get? k = some (json.Marshal
        (((json.Unmarshal ((stub.state.get? k).getD []) Invoice.zero).1).set Field.GR v)) := by
      rw [hs1, PutState_state_of_ne _ _ _ hk]
      exact Ledger.get?_put_same _ _ _
    rw [hget, Option.getD_some, json.Unmarshal_Marshal,
      Invoice.set_coerce_set _ _ (json.Unmarshal_valid _ _ Invoice.valid_zero)]
    exact PutState_twice stub stub1 k _ hs1

/-- C5: range scan boundary of `queryAllinvoices`.  On a key-ordered world state
whose backend answers a range scan with the stored entries having
`startKey <= key < endKey`, in order, the handler succeeds with the envelope of
exactly the stored entries whose key `k` satisfies `"INV0" <= k < "INV999"`, in
increasing key order, and no entry has the key `"INV999"`. -/
theorem queryAllinvoices_range (b : Backend) (stub : ChaincodeStub)
    (hord : stub.state.ordered)
    (hscan : ∀ s e, b.GetStateByRange stub.state s e
      = Except.ok ((scanRange stub.state s e).map Except.ok)) :
    queryAllinvoices b stub
        = some (shim.Success
              (envelope (go "Invoice") (scanRange stub.state (go "INV0") (go "INV999"))),
            stub.record (StubCall.GetStateByRange (go "INV0") (go "INV999"))) ∧
      (∀ k v, KV.mk k v ∈ scanRange stub.state (go "INV0") (go "INV999")
        ↔ ((k, v) ∈ stub.state ∧ stringLess k (go "INV0") = false
            ∧ stringLess k (go "INV999") = true)) ∧
      (scanRange stub.state (go "INV0") (go "INV999")).Pairwise
        (fun x y => stringLess x.Key y.Key = true) ∧
      ∀ v, KV.mk (go "INV999") v ∉ scanRange stub.state (go "INV0") (go "INV999") := by
  refine ⟨queryAllinvoices_ok b stub _ (hscan _ _), fun k v => scanRange_mem _ _ _ k v,
    scanRange_pairwise _ _ _ hord, ?_⟩
  intro v hv
  have := ((scanRange_mem _ _ _ _ _).1 hv).2.2
  rw [stringLess_irrefl] at this
  exact Bool.false_ne_true this

set_option maxRecDepth 100000 in
/-- C5 at the sample stub and backend: of the stored keys `A1`, `INV0`, `INV5`
and `INV999` the response lists `INV0` and `INV5`. -/
theorem queryAllinvoices_range_witness :
    scanRange sampleStub.state (go "INV0") (go "INV999")
        = [KV.mk (go "INV0") (json.Marshal sampleInvoice),
           KV.mk (go "INV5") (go "\x7b\"gr\":\"Y\"\x7d")] ∧
      queryAllinvoices sampleBackend sampleStub
        = some (shim.Success
              (envelope (go "Invoice") (scanRange sampleStub.state (go "INV0") (go "INV999"))),
            sampleStub.record (StubCall.GetStateByRange (go "INV0") (go "INV999"))) ∧
      (∀ k v, KV.mk k v ∈ scanRange sampleStub.state (go "INV0") (go "INV999")
        ↔ ((k, v) ∈ sampleStub.state ∧ stringLess k (go "INV0") = false
            ∧ stringLess k (go "INV999") = true)) ∧
      (scanRange sampleStub.state (go "INV0") (go "INV999")).Pairwise
        (fun x y => stringLess x.Key y.Key = true) ∧
      ∀ v, KV.mk (go "INV999") v ∉ scanRange sampleStub.state (go "INV0") (go "INV999") :=
  ⟨rfl, queryAllinvoices_range sampleBackend sampleStub (by unfold Ledger.ordered; decide)
    (fun _ _ => rfl)⟩

/-- C6: what `createInvoiceWithJsonInput` does with the documented arguments.
Dispatched with the two arguments `[key, rawJSON]` it returns the error
"Incorrect number of arguments. Expecting 5" and leaves the stub untouched,
whatever `rawJSON` is; dispatched with one argument it passes its guard and
panics reading `args[1]`.  No argument list makes it store anything. -/
theorem createInvoiceWithJsonInput_never_stores (b : Backend) (stub : ChaincodeStub)
    (key rawJSON : GoString) :
    Invoke b stub (go "createInvoiceWithJsonInput") [key, rawJSON]
        = some (shim.Error (go "Incorrect number of arguments. Expecting 5"), stub) ∧
      Invoke b stub (go "createInvoiceWithJsonInput") [key] = none ∧
      ∀ args resp stub1, createInvoiceWithJsonInput stub args = some (resp, stub1) →
        stub1 = stub ∧ resp = shim.Error (go "Incorrect number of arguments. Expecting 5") := by
  refine ⟨?_, ?_, ?_⟩
  · rw [Invoke_createInvoiceWithJsonInput]
    simp [createInvoiceWithJsonInput]
  · rw [Invoke_createInvoiceWithJsonInput]
    simp [createInvoiceWithJsonInput]
  · intro args resp stub1 h
    by_cases hlen : args.length = 1
    · rcases args with _ | ⟨a0, _ | ⟨a1, l⟩⟩ <;> simp at hlen
      simp [createInvoiceWithJsonInput] at h
    · simp [createInvoiceWithJsonInput, hlen] at h
      exact ⟨h.2.symm, h.1.symm⟩

/-- C7: unknown function name.  For every function name outside the eight
dispatched names, every argument list and every stub, `Invoke` returns the error
"Invalid Smart Contract function name." and the stub is unchanged: same world
state, and no stub call (read or write) recorded. -/
theorem Invoke_unknown_function (b : Backend) (stub : ChaincodeStub) (function : GoString)
    (args : List GoString)
    (h : function ∉ [go "newInvoice", go "queryAllInvoices", go "getUser",
      go "createInvoiceWithJsonInput", go "isGoodsReceived", go "isPaidToSupplier",
      go "isPaidToBank", go "getHistoryForInvoice"]) :
    Invoke b stub function args
      = some (shim.Error (go "Invalid Smart Contract function name."), stub) := by
  simp only [List.mem_cons, List.mem_singleton, List.not_mem_nil, or_false, not_or] at h
  obtain ⟨h1, h2, h3, h4, h5, h6, h7, h8⟩ := h
  unfold Invoke
  rw [if_neg h1, if_neg h2, if_neg h3, if_neg h4, if_neg h5, if_neg h6, if_neg h7, if_neg h8]

/-- C7 at the function name `bogus`. -/
theorem Invoke_unknown_function_witness :
    Invoke sampleBackend sampleStub (go "bogus") [go "INV0"]
      = some (shim.Error (go "Invalid Smart Contract function name."), sampleStub) :=
  Invoke_unknown_function sampleBackend sampleStub (go "bogus") [go "INV0"] (by decide)

/-- C8, as amended: arity validation.  `newInvoice` (11), `isGoodsReceived` (2),
`isPaidToSupplier` (3) and `isPaidToBank` (3) answer with the error
"Incorrect number of arguments. Expecting N" and an untouched stub exactly when
the number of arguments differs from N; `getHistoryForInvoice` does so (with
N = 1) exactly when it gets no argument at all. -/
theorem arity_validation (b : Backend) (stub : ChaincodeStub) (args : List GoString) :
    (newInvoice stub args
        = some (shim.Error (go "Incorrect number of arguments. Expecting 11"), stub)
      ↔ args.length ≠ 11) ∧
    (isGoodsReceived stub args
        = some (shim.Error (go "Incorrect number of arguments. Expecting 2"), stub)
      ↔ args.length ≠ 2) ∧
    (isPaidToSupplier stub args
        = some (shim.Error (go "Incorrect number of arguments. Expecting 3"), stub)
      ↔ args.length ≠ 3) ∧
    (isPaidToBank stub args
        = some (shim.Error (go "Incorrect number of arguments. Expecting 3"), stub)
      ↔ args.length ≠ 3) ∧
    (getHistoryForInvoice b stub args
        = some (shim.Error (go "Incorrect number of arguments. Expecting 1"), stub)
      ↔ args.length < 1) := by
  refine ⟨?_, ?_, ?_, ?_, ?_⟩
  · by_cases h : args.length = 11
    · rcases args with _ | ⟨a0, _ | ⟨a1, _ | ⟨a2, _ | ⟨a3, _ | ⟨a4, _ | ⟨a5, _ | ⟨a6, _ |
        ⟨a7, _ | ⟨a8, _ | ⟨a9, _ | ⟨a10, _ | ⟨a11, l⟩⟩⟩⟩⟩⟩⟩⟩⟩⟩⟩⟩ <;> simp at h
      rw [newInvoice_eq]
      simp [Success_ne_Error]
    · simp [newInvoice, h]
  · by_cases h : args.length = 2
    · rcases args with _ | ⟨a0, _ | ⟨a1, _ | ⟨a2, l⟩⟩⟩ <;> simp at h
      rw [isGoodsReceived_eq]
      simp [Success_ne_Error]
    · simp [isGoodsReceived, h]
  · by_cases h : args.length = 3
    · rcases args with _ | ⟨a0, _ | ⟨a1, _ | ⟨a2, _ | ⟨a3, l⟩⟩⟩⟩ <;> simp at h
      rw [isPaidToSupplier_eq]
      simp [Success_ne_Error]
    · simp [isPaidToSupplier, h]
  · by_cases h : args.length = 3
    · rcases args with _ | ⟨a0, _ | ⟨a1, _ | ⟨a2, _ | ⟨a3, l⟩⟩⟩⟩ <;> simp at h
      rw [isPaidToBank_eq]
      simp [Success_ne_Error]
    · simp [isPaidToBank, h]
  · cases args with
    | nil => simp [getHistoryForInvoice]
    | cons k rest =>
      obtain ⟨resp, hr⟩ := getHistoryForInvoice_calls b stub k rest
      rw [hr]
      simp [record_ne]

/-- C8 as stated fails: `getHistoryForInvoice` with two arguments is not rejected,
although two differs from the required count one. -/
theorem arity_counterexample :
    ¬ (getHistoryForInvoice sampleBackend sampleStub [go "INV0", go "extra"]
          = some (shim.Error (go "Incorrect number of arguments. Expecting 1"), sampleStub)
        ↔ [go "INV0", go "extra"].length ≠ 1) := by
  obtain ⟨resp, hr⟩ :=
    getHistoryForInvoice_calls sampleBackend sampleStub (go "INV0") [go "extra"]
  rw [hr]
  simp [record_ne]

/-- C9: output envelope.  If the range scan yields the entries `es` without error,
the success payload of `queryAllinvoices` is the opening bracket, the entries
rendered with the label `Invoice`, their key in quotes and their value verbatim,
joined by single commas, and the closing bracket; if a rich query yields `qs`
without error, `getQueryResultForQueryString` returns the same shape with the
label `Key`; the empty sequence gives `[]`. -/
theorem response_envelope (b : Backend) (stub : ChaincodeStub) (es qs : List KV)
    (queryString : GoString)
    (hrange : b.GetStateByRange stub.state (go "INV0") (go "INV999")
      = Except.ok (es.map Except.ok))
    (hquery : b.GetQueryResult stub.state queryString = Except.ok (qs.map Except.ok)) :
    queryAllinvoices b stub
        = some (shim.Success (envelope (go "Invoice") es),
            stub.record (StubCall.GetStateByRange (go "INV0") (go "INV999"))) ∧
      getQueryResultForQueryString b stub queryString
        = (Except.ok (envelope (go "Key") qs),
            stub.record (StubCall.GetQueryResult queryString)) ∧
      envelope (go "Invoice") [] = go "[]" ∧ envelope (go "Key") [] = go "[]" := by
  refine ⟨queryAllinvoices_ok b stub es hrange, ?_, by decide, by decide⟩
  have hw := writeResults_all (go "Key") (go "\x7b\"Key\":") (by decide) qs
  simp only [getQueryResultForQueryString, hquery]
  cases hr : writeResults (go "\x7b\"Key\":") (qs.map Except.ok) (go "[") false with
  | error err => rw [hr] at hw; simp [Except.map] at hw
  | ok buffer =>
    rw [hr] at hw
    simp only [Except.map, Except.ok.injEq] at hw
    simp [hw]

set_option maxRecDepth 100000 in
/-- C9 at the sample stub and backend, with the payloads written out. -/
theorem response_envelope_witness :
    envelope (go "Invoice")
        [KV.mk (go "INV5") (go "\x7b\"gr\":\"Y\"\x7d"), KV.mk (go "INV7") (go "\x7b\x7d")]
        = go "[\x7b\"Invoice\":\"INV5\", \"Record\":\x7b\"gr\":\"Y\"\x7d\x7d,\x7b\"Invoice\":\"INV7\", \"Record\":\x7b\x7d\x7d]" ∧
      queryAllinvoices sampleBackend sampleStub
        = some (shim.Success (envelope (go "Invoice")
              [KV.mk (go "INV0") (json.Marshal sampleInvoice),
               KV.mk (go "INV5") (go "\x7b\"gr\":\"Y\"\x7d")]),
            sampleStub.record (StubCall.GetStateByRange (go "INV0") (go "INV999"))) ∧
      getQueryResultForQueryString sampleBackend sampleStub (go "\x7b\"selector\":\x7b\x7d\x7d")
        = (Except.ok (envelope (go "Key")
              [KV.mk (go "A1") (go "\x7b\x7d"), KV.mk (go "INV0") (json.Marshal sampleInvoice),
               KV.mk (go "INV5") (go "\x7b\"gr\":\"Y\"\x7d"),
               KV.mk (go "INV999") (go "\x7b\x7d")]),
            sampleStub.record (StubCall.GetQueryResult (go "\x7b\"selector\":\x7b\x7d\x7d"))) ∧
      envelope (go "Invoice") [] = go "[]" ∧ envelope (go "Key") [] = go "[]" :=
  ⟨rfl, response_envelope sampleBackend sampleStub _ _ _ rfl rfl⟩

/-- C10: history replay.  If the backend yields the history `h` of the key without
error, `getHistoryForInvoice` succeeds with the bracketed, comma-joined list of
one entry per element of `h`, in the order of `h`, each entry carrying the
element's transaction identifier as `TxId`, its bytes verbatim as `Value`, and as
`Timestamp` the time string of its (seconds, nanos) pair; the world state is
unchanged. -/
theorem history_replay (b : Backend) (stub : ChaincodeStub) (k : GoString)
    (rest : List GoString) (h : List KeyModification)
    (hh : b.GetHistoryForKey stub.state k = Except.ok (h.map Except.ok)) :
    ∃ stub1 : ChaincodeStub,
      getHistoryForInvoice b stub (k :: rest)
        = some (shim.Success (historyEnvelope b.timeString h), stub1) ∧
      stub1.state = stub.state := by
  refine ⟨stub.record (StubCall.GetHistoryForKey k), ?_, rfl⟩
  have hw := writeHistory_all b.timeString h
  simp only [getHistoryForInvoice_cons, hh]
  cases hr : writeHistory b.timeString (h.map Except.ok) (go "[") false with
  | error err => rw [hr] at hw; simp [Except.map] at hw
  | ok buffer =>
    rw [hr] at hw
    simp only [Except.map, Except.ok.injEq] at hw
    simp [hw]

set_option maxRecDepth 100000 in
/-- C10 at the sample backend, with the payload written out. -/
theorem history_replay_witness :
    historyEnvelope sampleBackend.timeString sampleHistory
        = go "[\x7b\"TxId\":\"tx1\", \"Value\":\x7b\"gr\":\"N\"\x7d, \"Timestamp\":\"2018-06-03 04:26:40 +0000 UTC\"\x7d,\x7b\"TxId\":\"tx2\", \"Value\":\x7b\"gr\":\"Y\"\x7d, \"Timestamp\":\"2018-06-03 04:27:40.0000005 +0000 UTC\"\x7d]" ∧
      ∃ stub1 : ChaincodeStub,
        getHistoryForInvoice sampleBackend sampleStub [go "INV0"]
          = some (shim.Success (historyEnvelope sampleBackend.timeString sampleHistory), stub1) ∧
        stub1.state = sampleStub.state :=
  ⟨rfl, history_replay sampleBackend sampleStub (go "INV0") [] sampleHistory rfl⟩

/-- C11: argument indexing is not safe in two handlers.  In `fabinvoice.go`,
`Invoke` panics (reads an argument position that does not exist) exactly when it
dispatches `createInvoiceWithJsonInput` with one argument; in `invoice.go`,
`Invoke` panics exactly when it dispatches `createCar` (the handler
`createInvoice`) with five arguments.  Every other function name and argument
list, of any length, gets a response. -/
theorem argument_indexing_panics (b : Backend) (stub : ChaincodeStub) :
    Invoke b stub (go "createInvoiceWithJsonInput") [go "INV1"] = none ∧
    InvoiceGo.Invoke b stub (go "createCar")
        [go "INVC1", go "Acme", go "2018-06-01", go "1000", go "widgets"]
      = none ∧
    (∀ function args, Invoke b stub function args = none
      ↔ (function = go "createInvoiceWithJsonInput" ∧ args.length = 1)) ∧
    (∀ function args, InvoiceGo.Invoke b stub function args = none
      ↔ (function = go "createCar" ∧ args.length = 5)) :=
  ⟨(Invoke_eq_none_iff b stub _ _).2 ⟨rfl, rfl⟩,
    (InvoiceGo_Invoke_eq_none_iff b stub _ _).2 ⟨rfl, rfl⟩,
    fun function args => Invoke_eq_none_iff b stub function args,
    fun function args => InvoiceGo_Invoke_eq_none_iff b stub function args⟩

/-- C12, as amended: update on an absent key creates a record.  If the key `k` is
not empty and `GetState` yields empty bytes for it, then `isGoodsReceived` with
`[k, v]` returns success (no error is raised) and afterwards `k` holds the
encoding of the record whose `GR` is `v` and whose nine other fields are empty;
that text decodes without error to this record with `GR` coerced to valid UTF-8,
and every other key keeps its value. -/
theorem isGoodsReceived_absent_key (stub : ChaincodeStub) (k v : GoString) (hne : k ≠ [])
    (hk : (stub.GetState k).1 = []) :
    ∃ stub1 : ChaincodeStub,
      isGoodsReceived stub [k, v] = some (shim.Success [], stub1) ∧
      stub1.state.get? k = some (json.Marshal { Invoice.zero with GR := v }) ∧
      json.Unmarshal (json.Marshal { Invoice.zero with GR := v }) Invoice.zero
        = ({ Invoice.zero with GR := json.coerceUTF8 v }, none) ∧
      ∀ other, other ≠ k → stub1.state.get? other = stub.state.get? other := by
  simp only [ChaincodeStub.GetState] at hk
  refine ⟨((stub.record (StubCall.GetState k)).PutState k
    (json.Marshal { Invoice.zero with GR := v })).2, ?_, ?_, ?_, ?_⟩
  · rw [isGoodsReceived_eq, hk, Unmarshal_empty_input]
  · rw [PutState_state_of_ne _ _ _ hne]
    exact Ledger.get?_put_same _ _ _
  · rw [json.Unmarshal_Marshal]
    rfl
  · intro other ho
    rw [PutState_state_of_ne _ _ _ hne]
    exact Ledger.get?_put_other _ _ _ _ ho

/-- C12 at the sample stub, which stores nothing under `INV7`. -/
theorem isGoodsReceived_absent_key_witness :
    go "INV7" ≠ [] ∧ (sampleStub.GetState (go "INV7")).1 = [] ∧
    ∃ stub1 : ChaincodeStub,
      isGoodsReceived sampleStub [go "INV7", go "Y"] = some (shim.Success [], stub1) ∧
      stub1.state.get? (go "INV7") = some (json.Marshal { Invoice.zero with GR := go "Y" }) ∧
      json.Unmarshal (json.Marshal { Invoice.zero with GR := go "Y" }) Invoice.zero
        = ({ Invoice.zero with GR := json.coerceUTF8 (go "Y") }, none) ∧
      ∀ other, other ≠ go "INV7" → stub1.state.get? other = sampleStub.state.get? other :=
  ⟨by decide, rfl, isGoodsReceived_absent_key sampleStub (go "INV7") (go "Y") (by decide) rfl⟩

set_option maxRecDepth 100000 in
/-- C12 as stated fails at the empty key: `GetState` yields empty bytes for it,
`isGoodsReceived` answers success, but `PutState` refused the key, so the world
state is unchanged and holds nothing under the empty key. -/
theorem isGoodsReceived_absent_key_counterexample :
    (sampleStub.GetState []).1 = [] ∧
    ∃ stub1 : ChaincodeStub,
      isGoodsReceived sampleStub [[], go "Y"] = some (shim.Success [], stub1) ∧
      stub1.state = sampleStub.state ∧
      stub1.state.get? [] = none ∧
      stub1.state.get? [] ≠ some (json.Marshal { Invoice.zero with GR := go "Y" }) :=
  ⟨rfl, _, rfl, rfl, rfl, by decide⟩

end Fabinvoice
